import Mathlib

/-!
Verification of the relaycode-core patch engine against its specification.

The development shallowly embeds the TypeScript sources:
  * `src/patch.ts` — `applyOperations`, `applyFileOperations`,
    `findBestFileMatch`, `calculateLcsLength`, `calculateLineChanges`;
  * `src/parser.ts` — `parseCodeBlockHeader`, `parseCodeBlock`,
    `inferPatchStrategy`, `extractAndParseYaml`, `parseLLMResponse`.

JS strings are modelled as `List Char` (all inputs of interest are ASCII),
JS `Map`s as insertion-ordered association lists with unique keys, and the
two external diff appliers of the `apply-multi-diff` package, the `js-yaml`
plus `zod` control-block validator and the `JSON.parse` used for rename
bodies as explicit function parameters (they are external dependencies, not
code of this repository).
-/

set_option maxRecDepth 200000

namespace Relay

/-- Characters of a JS string; every modelled input is ASCII. -/
abbrev Str := List Char

/-- A file snapshot: insertion-ordered association list mirroring a JS
`Map<string, string | null>`.  `none` models a stored `null` ("tracked but
absent"); a missing key models `undefined`. -/
abbrev SnapshotM := List (Str × Option Str)

/-- JS `Map.get`: outer `none` models `undefined` (key missing). -/
def mget : SnapshotM → Str → Option (Option Str)
  | [], _ => none
  | (k, v) :: rest, q => if k = q then some v else mget rest q

/-- JS `Map.set`: updates the value in place when the key exists, else
appends, preserving insertion order. -/
def mset : SnapshotM → Str → Option Str → SnapshotM
  | [], k, v => [(k, v)]
  | (k', v') :: rest, k, v =>
    if k' = k then (k, v) :: rest else (k', v') :: mset rest k v

/-- JS `Map.has`. -/
def mhas (m : SnapshotM) (k : Str) : Bool := (mget m k).isSome

/-- A string-valued JS `Map<string, string>` (the path-rewrite map). -/
abbrev MapSS := List (Str × Str)

/-- `Map.get` on a string-valued map. -/
def lookupSS : MapSS → Str → Option Str
  | [], _ => none
  | (k, v) :: rest, q => if k = q then some v else lookupSS rest q

/-- `Map.set` on a string-valued map. -/
def msetSS : MapSS → Str → Str → MapSS
  | [], k, v => [(k, v)]
  | (k', v') :: rest, k, v =>
    if k' = k then (k, v) :: rest else (k', v') :: msetSS rest k v

theorem mget_mset_same (m : SnapshotM) (k : Str) (v : Option Str) :
    mget (mset m k v) k = some v := by
  induction m with
  | nil => simp [mget, mset]
  | cons h rest ih =>
    obtain ⟨k', v'⟩ := h
    by_cases hk : k' = k
    · simp [mset, hk, mget]
    · simp [mset, hk, mget, ih]

theorem mget_mset_ne (m : SnapshotM) (k q : Str) (v : Option Str)
    (hne : k ≠ q) : mget (mset m k v) q = mget m q := by
  induction m with
  | nil => simp [mget, mset, hne]
  | cons h rest ih =>
    obtain ⟨k', v'⟩ := h
    by_cases hk : k' = k
    · subst hk
      simp [mset, mget, hne]
    · simp [mset, hk, mget, ih]

/-! ## The operation algebra (src/types.ts) -/

/-- The closed patch-dialect enumeration of `PatchStrategySchema`. -/
inductive PatchStrategy
  | replace
  | standardDiff
  | searchReplace
deriving DecidableEq, Repr

/-- `FileOperation`, the tagged union of `src/types.ts`. -/
inductive FileOperation
  | write (path content : Str) (patchStrategy : PatchStrategy)
  | delete (path : Str)
  | rename (src dst : Str)
deriving DecidableEq, Repr

/-- A non-rename operation after the TypeScript narrowing
`FileOperation & { type: 'write' | 'delete' }` (the path is carried
separately, as the planner groups by it). -/
inductive WDOp
  | wwrite (content : Str) (patchStrategy : PatchStrategy)
  | wdelete
deriving DecidableEq, Repr

/-- The two pure external diff appliers consumed from `apply-multi-diff`
(`applyStandardDiff`, `applySearchReplace`), modelled as parameters. -/
structure Patchers where
  std : Str → Str → Except Str Str
  sr : Str → Str → Except Str Str

/-! ## The patch applier (src/patch.ts, applyFileOperations) -/

/-- Error text `Cannot delete non-existent file: ${p}`. -/
def delErr (p : Str) : Str := ("Cannot delete non-existent file: ".data) ++ p

/-- Error text `Cannot use 'search-replace' on a new file: ${p}`. -/
def srErr (p : Str) : Str :=
  ("Cannot use 'search-replace' on a new file: ".data) ++ p

/-- Error text `Patch failed for ${p}: ${e}`. -/
def patchErr (p e : Str) : Str :=
  ("Patch failed for ".data) ++ p ++ (": ".data) ++ e

/-- Error text `Cannot rename non-existent or untracked file: ${f}`. -/
def renameErr (f : Str) : Str :=
  ("Cannot rename non-existent or untracked file: ".data) ++ f

/-- `applyFileOperations` of src/patch.ts: folds one file's operation chain
over its current content.  The `patcher` dispatch can never hit the
`Unknown patch strategy` branch because `PatchStrategy` is a closed enum,
and the patchers are modelled as total functions into `Except`, so the
`typeof result.content !== 'string'` and `catch` branches are unreachable. -/
def applyFileOperations (P : Patchers) (filePath : Str) :
    List WDOp → Option Str → Except Str (Option Str)
  | [], current => .ok current
  | .wdelete :: rest, current =>
    match current with
    | none => .error (delErr filePath)
    | some _ => applyFileOperations P filePath rest none
  | .wwrite c ps :: rest, current =>
    match ps with
    | .replace => applyFileOperations P filePath rest (some c)
    | .searchReplace =>
      match current with
      | none => .error (srErr filePath)
      | some cur =>
        match P.sr cur c with
        | .ok content => applyFileOperations P filePath rest (some content)
        | .error e => .error (patchErr filePath e)
    | .standardDiff =>
      match P.std (current.getD []) c with
      | .ok content => applyFileOperations P filePath rest (some content)
      | .error e => .error (patchErr filePath e)

/-! ## Fuzzy path repair (src/patch.ts, findBestFileMatch) -/

/-- Node's POSIX `path.basename`: trailing slashes are ignored, then the
part after the last remaining slash is returned. -/
def basename (s : Str) : Str :=
  ((s.reverse.dropWhile (fun c => c = '/')).takeWhile (fun c => c ≠ '/')).reverse

/-- `p.replace(/\\/g, '/')`. -/
def normSlash (s : Str) : Str :=
  s.map (fun c => if c = '\\' then '/' else c)

/-- JS `String.split(sep)` for a single-character separator: always returns
at least one (possibly empty) segment. -/
def splitChar (sep : Char) : Str → List Str
  | [] => [[]]
  | c :: r =>
    if c = sep then [] :: splitChar sep r
    else
      match splitChar sep r with
      | h :: t => (c :: h) :: t
      | [] => [[c]]

/-- The reversed `/`-segment list used by the suffix scorer. -/
def revSegs (p : Str) : List Str := (splitChar '/' (normSlash p)).reverse

/-- The scoring loop body of `findBestFileMatch`: count matching segments
right-to-left, stopping at the first mismatch. -/
def countCommonPre : List Str → List Str → Nat
  | a :: as, b :: bs => if a = b then countCommonPre as bs + 1 else 0
  | _, _ => 0

/-- Suffix-segment score of one candidate against the target. -/
def segScore (target candidate : Str) : Nat :=
  countCommonPre (revSegs target) (revSegs candidate)

/-- The candidate loop of `findBestFileMatch`: tracks `bestCandidate` and
`highestScore` (initially `null` and `-1`); a strictly higher score adopts
the candidate, an equal score marks ambiguity (`null`). -/
def bestLoop (target : Str) : List Str → Option Str → Int → Option Str
  | [], best, _ => best
  | c :: rest, best, highest =>
    let score : Int := (segScore target c : Nat)
    if highest < score then bestLoop target rest (some c) score
    else if score = highest then bestLoop target rest none highest
    else bestLoop target rest best highest

/-- `findBestFileMatch` of src/patch.ts. -/
def findBestFileMatch (targetPath : Str) (availablePaths : List Str) :
    Option Str :=
  let targetFileName := basename targetPath
  if targetFileName = [] then none
  else
    let candidates :=
      availablePaths.filter (fun p => basename p = targetFileName)
    match candidates with
    | [] => none
    | [c] => some c
    | _ => bestLoop targetPath candidates none (-1)

/-! ## The operation planner (src/patch.ts, applyOperations) -/

/-- The `pathMapping` update on a successful rename `f → t`: every entry
whose value is `f` is rewritten to `t`, then `f → t` is inserted. -/
def updatePm (pm : MapSS) (f t : Str) : MapSS :=
  msetSS (pm.map (fun e => (e.1, if e.2 = f then t else e.2))) f t

/-- Step 1 of `applyOperations`: execute the renames sequentially against
the working snapshot while building the transitive path-rewrite map. -/
def processRenames :
    List (Str × Str) → SnapshotM → MapSS → Except Str (SnapshotM × MapSS)
  | [], st, pm => .ok (st, pm)
  | (f, t) :: rest, st, pm =>
    match mget st f with
    | none => .error (renameErr f)
    | some content =>
      processRenames rest (mset (mset st f none) t content) (updatePm pm f t)

/-- The renames of an operation list, in order. -/
def renamesOf (ops : List FileOperation) : List (Str × Str) :=
  ops.filterMap fun op =>
    match op with
    | .rename f t => some (f, t)
    | _ => none

/-- The non-rename operations of an operation list, in order, with the
TypeScript narrowing applied. -/
def othersOf (ops : List FileOperation) : List (Str × WDOp) :=
  ops.filterMap fun op =>
    match op with
    | .write p c ps => some (p, .wwrite c ps)
    | .delete p => some (p, .wdelete)
    | .rename _ _ => none

/-- Step 2 of `applyOperations`: remap one operation through the rewrite
map.  The source tests the looked-up path for JS truthiness
(`return newPath ? { ...op, path: newPath } : op`), so a mapping onto the
empty string is silently ignored. -/
def remapOp (pm : MapSS) (pw : Str × WDOp) : Str × WDOp :=
  match lookupSS pm pw.1 with
  | some np => if np = [] then pw else (np, pw.2)
  | none => pw

/-- `(op.type === 'write' && op.patchStrategy !== 'replace') ||
op.type === 'delete'`. -/
def isPatchOrDeleteOp : WDOp → Bool
  | .wwrite _ .replace => false
  | .wwrite _ _ => true
  | .wdelete => true

/-- Step 2.5 of `applyOperations`: fuzzy repair of a missing path for a
patch (non-`replace` write) or delete operation. -/
def fuzzyStep (st : SnapshotM) (avail : List Str) (pw : Str × WDOp) :
    Str × WDOp :=
  let fileExists := mhas st pw.1
  if !fileExists && isPatchOrDeleteOp pw.2 then
    match findBestFileMatch pw.1 avail with
    | some best => (best, pw.2)
    | none => pw
  else pw

/-- Step 3 of `applyOperations`: group by final path, preserving the JS
`Map` insertion order of first occurrence, appending within a group. -/
def addToGroup : List (Str × List WDOp) → Str → WDOp → List (Str × List WDOp)
  | [], p, w => [(p, [w])]
  | (q, ws) :: rest, p, w =>
    if q = p then (q, ws ++ [w]) :: rest else (q, ws) :: addToGroup rest p w

/-- Build `opsByFile` from the repaired operation list. -/
def groupByPath (ops : List (Str × WDOp)) : List (Str × List WDOp) :=
  ops.foldl (fun acc pw => addToGroup acc pw.1 pw.2) []

/-- Step 4 of `applyOperations`: apply each group's chain and commit, the
first error aborting the call (the source races the groups but reports a
single `firstError` and discards the working snapshot on failure; the
deterministic sequential model returns the first group's error in group
order). -/
def applyGroups (P : Patchers) :
    List (Str × List WDOp) → SnapshotM → Except Str SnapshotM
  | [], st => .ok st
  | (p, ops) :: rest, st =>
    match applyFileOperations P p ops (mget st p).join with
    | .ok content => applyGroups P rest (mset st p content)
    | .error e => .error e

/-- `applyOperations` of src/patch.ts: copy the input snapshot, execute
renames, remap, fuzzy-repair, group, apply.  `availablePaths` filters out
`null` keys, which drops nothing because JS `Map<string, _>` keys are
strings. -/
def applyOperations (P : Patchers) (operations : List FileOperation)
    (originalFiles : SnapshotM) : Except Str SnapshotM :=
  match processRenames (renamesOf operations) originalFiles [] with
  | .error e => .error e
  | .ok (st, pm) =>
    applyGroups P
      (groupByPath
        (((othersOf operations).map (remapOp pm)).map
          (fuzzyStep st (st.map Prod.fst)))) st

/-- A trivial patcher pair for concrete evaluations that never reach the
diff dialects. -/
def P0 : Patchers :=
  ⟨fun _ _ => .error ("unused".data), fun _ _ => .error ("unused".data)⟩

/-! ## Properties of the path-rewrite map -/

/-- A rewrite map is chain-free when a single lookup suffices: every
entry's value is either not a key of the map or a fixed point of it. -/
def chainFree (pm : MapSS) : Prop :=
  ∀ e ∈ pm, lookupSS pm e.2 = none ∨ lookupSS pm e.2 = some e.2

instance chainFreeDec (pm : MapSS) : Decidable (chainFree pm) :=
  inferInstanceAs
    (Decidable (∀ e ∈ pm, lookupSS pm e.2 = none ∨ lookupSS pm e.2 = some e.2))

/-- No rename's destination collides with its own source or with the
source of any earlier rename (`seen` carries the earlier sources). -/
def renSafe : List (Str × Str) → List Str → Prop
  | [], _ => True
  | (f, t) :: rest, seen => t ∉ seen ∧ t ≠ f ∧ renSafe rest (f :: seen)

/-- Decidability of `renSafe`, by structural recursion. -/
def renSafeDec : (rs : List (Str × Str)) → (seen : List Str) →
    Decidable (renSafe rs seen)
  | [], _ => .isTrue trivial
  | (f, t) :: rest, seen =>
    letI : Decidable (renSafe rest (f :: seen)) := renSafeDec rest (f :: seen)
    inferInstanceAs (Decidable (t ∉ seen ∧ t ≠ f ∧ renSafe rest (f :: seen)))

attribute [instance] renSafeDec

theorem mem_msetSS {k v : Str} : ∀ {pm : MapSS} {e : Str × Str},
    e ∈ msetSS pm k v → e = (k, v) ∨ e ∈ pm := by
  intro pm
  induction pm with
  | nil =>
    intro e h
    exact Or.inl (by simpa [msetSS] using h)
  | cons hd rest ih =>
    intro e h
    obtain ⟨k', v'⟩ := hd
    simp only [msetSS] at h
    by_cases hk : k' = k
    · rw [if_pos hk] at h
      rcases List.mem_cons.mp h with h | h
      · exact Or.inl h
      · exact Or.inr (List.mem_cons_of_mem _ h)
    · rw [if_neg hk] at h
      rcases List.mem_cons.mp h with h | h
      · exact Or.inr (by simp [h])
      · rcases ih h with h' | h'
        · exact Or.inl h'
        · exact Or.inr (List.mem_cons_of_mem _ h')

theorem lookupSS_eq_none {pm : MapSS} {q : Str}
    (h : ∀ e ∈ pm, e.1 ≠ q) : lookupSS pm q = none := by
  induction pm with
  | nil => rfl
  | cons hd rest ih =>
    have hne : hd.1 ≠ q := h hd (List.mem_cons_self _ _)
    obtain ⟨k', v'⟩ := hd
    simp only [lookupSS, if_neg hne]
    exact ih fun e he => h e (List.mem_cons_of_mem _ he)

theorem processRenames_bounded :
    ∀ (rs : List (Str × Str)) (seen : List Str) (st : SnapshotM) (pm : MapSS)
      (stF : SnapshotM) (pmF : MapSS),
      renSafe rs seen →
      (∀ e ∈ pm, e.1 ∈ seen) →
      (∀ e ∈ pm, e.2 ∉ seen) →
      processRenames rs st pm = .ok (stF, pmF) →
      ∃ S : List Str, (∀ e ∈ pmF, e.1 ∈ S) ∧ (∀ e ∈ pmF, e.2 ∉ S) := by
  intro rs
  induction rs with
  | nil =>
    intro seen st pm stF pmF _ hkeys hvals hrun
    simp only [processRenames, Except.ok.injEq, Prod.mk.injEq] at hrun
    exact ⟨seen, hrun.2 ▸ hkeys, hrun.2 ▸ hvals⟩
  | cons ft rest ih =>
    intro seen st pm stF pmF hsafe hkeys hvals hrun
    obtain ⟨f, t⟩ := ft
    obtain ⟨htseen, htf, hsafe'⟩ := hsafe
    simp only [processRenames] at hrun
    cases hget : mget st f with
    | none => rw [hget] at hrun; exact absurd hrun (by simp)
    | some content =>
      rw [hget] at hrun
      refine ih (f :: seen) _ _ _ _ hsafe' ?_ ?_ hrun
      · intro e he
        rcases mem_msetSS he with h | h
        · subst h; exact List.mem_cons_self _ _
        · rcases List.mem_map.mp h with ⟨a, ha, rfl⟩
          exact List.mem_cons_of_mem _ (hkeys a ha)
      · intro e he
        rcases mem_msetSS he with h | h
        · subst h
          simp only [List.mem_cons]
          rintro (h' | h')
          · exact htf h'
          · exact htseen h'
        · rcases List.mem_map.mp h with ⟨a, ha, rfl⟩
          by_cases hv : a.2 = f
          · simp only [hv, if_pos rfl, List.mem_cons]
            rintro (h' | h')
            · exact htf h'
            · exact htseen h'
          · simp only [if_neg hv, List.mem_cons]
            rintro (h' | h')
            · exact hv h'
            · exact hvals a ha h'

/-- C7, general part: under the no-collision side condition the rewrite
map never needs a second lookup. -/
theorem chainFree_of_renSafe (rs : List (Str × Str)) (snap stF : SnapshotM)
    (pmF : MapSS) (hsafe : renSafe rs [])
    (hrun : processRenames rs snap [] = .ok (stF, pmF)) : chainFree pmF := by
  obtain ⟨S, hkeys, hvals⟩ :=
    processRenames_bounded rs [] snap [] stF pmF hsafe
      (by intro e he; cases he) (by intro e he; cases he) hrun
  intro e he
  left
  exact lookupSS_eq_none fun e' he' heq => hvals e he (heq ▸ hkeys e' he')

/-- C7 (amended).  The path-rewrite map built by the planner contains no
chains provided no rename's destination equals the source of that or any
earlier rename; and, unconditionally, after processing `Rename{A,B}` then
`Rename{B,C}` the map sends both `A` and `B` directly to `C`, so a single
lookup remaps any non-rename operation. -/
theorem c7_transitive_rewrite_map :
    (∀ (rs : List (Str × Str)) (snap stF : SnapshotM) (pmF : MapSS),
      renSafe rs [] → processRenames rs snap [] = .ok (stF, pmF) →
      chainFree pmF)
  ∧ (∀ (A B C : Str) (snap stF : SnapshotM) (pmF : MapSS),
      processRenames [(A, B), (B, C)] snap [] = .ok (stF, pmF) →
      lookupSS pmF A = some C ∧ lookupSS pmF B = some C) := by
  constructor
  · exact fun rs snap stF pmF => chainFree_of_renSafe rs snap stF pmF
  · intro A B C snap stF pmF hrun
    cases hgA : mget snap A with
    | none =>
      rw [show processRenames [(A, B), (B, C)] snap [] =
            Except.error (renameErr A) by
          simp only [processRenames, hgA]] at hrun
      exact absurd hrun (by simp)
    | some v =>
      rw [show processRenames [(A, B), (B, C)] snap [] =
            Except.ok (mset (mset (mset (mset snap A none) B v) B none) C v,
              updatePm (updatePm [] A B) B C) by
          simp only [processRenames, hgA, mget_mset_same]] at hrun
      simp only [Except.ok.injEq, Prod.mk.injEq] at hrun
      have hpm : pmF = updatePm (updatePm [] A B) B C := hrun.2.symm
      subst hpm
      by_cases hAB : A = B
      · subst hAB
        simp [updatePm, msetSS, lookupSS]
      · constructor
        · simp [updatePm, msetSS, lookupSS, hAB]
        · simp [updatePm, msetSS, lookupSS, hAB, Ne.symm hAB]

/-- C7 counterexample: rename `t → z` then `f → t` — both successful —
leaves the chain `f → t → z` in the rewrite map, refuting the claim that
the map contains no chains after any sequence of successful renames. -/
theorem c7_chain_counterexample :
    processRenames [("t".data, "z".data), ("f".data, "t".data)]
        [("t".data, some "1".data), ("f".data, some "2".data)] [] =
      .ok ([("t".data, some "2".data), ("f".data, none),
            ("z".data, some "1".data)],
           [("t".data, "z".data), ("f".data, "t".data)]) ∧
    ¬ chainFree [("t".data, "z".data), ("f".data, "t".data)] :=
  ⟨by rfl, by decide⟩

/-- C7 witness: the amended theorem applied to `a → b` then `b → c` over
the snapshot `{a ↦ "x"}`. -/
theorem c7_witness :
    chainFree [("a".data, "c".data), ("b".data, "c".data)] ∧
    lookupSS [("a".data, "c".data), ("b".data, "c".data)] "a".data =
      some "c".data :=
  ⟨c7_transitive_rewrite_map.1 [("a".data, "b".data), ("b".data, "c".data)]
      [("a".data, some "x".data)]
      [("a".data, none), ("b".data, none), ("c".data, some "x".data)]
      [("a".data, "c".data), ("b".data, "c".data)] (by decide) (by rfl),
   (c7_transitive_rewrite_map.2 "a".data "b".data "c".data
      [("a".data, some "x".data)]
      [("a".data, none), ("b".data, none), ("c".data, some "x".data)]
      [("a".data, "c".data), ("b".data, "c".data)] (by rfl)).1⟩

/-! ## Path aliasing and rename semantics (C1, C9) -/

/-- C1 (amended).  For distinct paths `A ≠ B` with `B` nonempty and a
snapshot in which `A` is a key, applying `[Rename{A,B}, Write{A,c,replace}]`
succeeds and yields a snapshot with `A` absent and `B` carrying the written
content: the write against the old path lands on the new path. -/
theorem c1_path_aliasing (P : Patchers) (A B c : Str) (snap : SnapshotM)
    (v : Option Str) (hA : mget snap A = some v) (hAB : A ≠ B)
    (hB : B ≠ []) :
    ∃ st, applyOperations P [.rename A B, .write A c .replace] snap =
        .ok st ∧
      mget st A = some none ∧ mget st B = some (some c) := by
  refine ⟨mset (mset (mset snap A none) B v) B (some c), ?_, ?_, ?_⟩
  · have hren : processRenames
        (renamesOf [.rename A B, .write A c .replace]) snap [] =
        .ok (mset (mset snap A none) B v, [(A, B)]) := by
      simp only [renamesOf, List.filterMap]
      simp only [processRenames, hA, updatePm, List.map_nil, msetSS]
    have hlook : lookupSS [(A, B)] A = some B := by simp [lookupSS]
    have hgetB : mget (mset (mset snap A none) B v) B = some v :=
      mget_mset_same _ _ _
    unfold applyOperations
    rw [hren]
    simp [othersOf, List.filterMap, remapOp, hlook, if_neg hB, fuzzyStep,
      isPatchOrDeleteOp, groupByPath, addToGroup, applyGroups, hgetB,
      applyFileOperations]
  · rw [mget_mset_ne _ _ _ _ (Ne.symm hAB),
      mget_mset_ne _ _ _ _ (Ne.symm hAB)]
    exact mget_mset_same _ _ _
  · exact mget_mset_same _ _ _

/-- C1 counterexample: with the destination path empty the rewrite map
lookup is falsy in JS and the write is not remapped (`A` keeps the written
content instead of becoming absent, `B = ""` keeps the old content); with
`A = B` the final snapshot likewise has `A` present.  Both refute the
claim's universal statement. -/
theorem c1_counterexample :
    applyOperations P0
        [.rename "a".data "".data, .write "a".data "x".data .replace]
        [("a".data, some "c".data)] =
      .ok [("a".data, some "x".data), ([], some "c".data)] ∧
    applyOperations P0
        [.rename "a".data "a".data, .write "a".data "x".data .replace]
        [("a".data, some "c".data)] =
      .ok [("a".data, some "x".data)] :=
  ⟨by rfl, by rfl⟩

/-- C1 witness: the amended theorem at `A = "a"`, `B = "b"`,
`snap = {a ↦ "c"}`. -/
theorem c1_witness :
    ∃ st, applyOperations P0
        [.rename "a".data "b".data, .write "a".data "x".data .replace]
        [("a".data, some "c".data)] = .ok st ∧
      mget st "a".data = some none ∧
      mget st "b".data = some (some "x".data) :=
  c1_path_aliasing P0 "a".data "b".data "x".data
    [("a".data, some "c".data)] (some "c".data) (by rfl) (by decide)
    (by decide)

/-- Reduction of `applyOperations` on a single rename that finds its
source: the working snapshot is the double update, the rewrite map is the
singleton. -/
theorem applyOperations_single_rename (P : Patchers) (f t : Str)
    (snap : SnapshotM) (v : Option Str) (hf : mget snap f = some v) :
    applyOperations P [.rename f t] snap =
      .ok (mset (mset snap f none) t v) := by
  unfold applyOperations
  rw [show processRenames (renamesOf [.rename f t]) snap [] =
        .ok (mset (mset snap f none) t v, [(f, t)]) by
      simp only [renamesOf, List.filterMap]
      simp only [processRenames, hf, updatePm, List.map_nil, msetSS]]
  simp only [othersOf, List.filterMap, List.map, groupByPath, List.foldl,
    applyGroups]

/-- C9 (amended).  Renaming onto an existing destination is not an error:
for `from ≠ to` both present as keys, the rename succeeds, silently
overwrites `to` with `from`'s content and sets `from` to absent; the
rename fails exactly when `from` is not a key at all; and a
tracked-but-absent `from` renames successfully, carrying absent to the
destination. -/
theorem c9_rename_overwrite (P : Patchers) (f t : Str) (snap : SnapshotM) :
    (∀ v, f ≠ t → mget snap f = some v → (mget snap t).isSome →
      ∃ st, applyOperations P [.rename f t] snap = .ok st ∧
        mget st t = some v ∧ mget st f = some none)
  ∧ ((∃ e, applyOperations P [.rename f t] snap = .error e) ↔
      mget snap f = none)
  ∧ (mget snap f = some none →
      ∃ st, applyOperations P [.rename f t] snap = .ok st ∧
        mget st t = some none) := by
  refine ⟨?_, ⟨?_, ?_⟩, ?_⟩
  · intro v hft hgf _
    refine ⟨mset (mset snap f none) t v,
      applyOperations_single_rename P f t snap v hgf, mget_mset_same _ _ _,
      ?_⟩
    rw [mget_mset_ne _ _ _ _ (Ne.symm hft)]
    exact mget_mset_same _ _ _
  · rintro ⟨e, he⟩
    cases hgf : mget snap f with
    | none => rfl
    | some v =>
      rw [applyOperations_single_rename P f t snap v hgf] at he
      exact absurd he (by simp)
  · intro hgf
    refine ⟨renameErr f, ?_⟩
    unfold applyOperations
    rw [show processRenames (renamesOf [.rename f t]) snap [] =
          .error (renameErr f) by
        simp only [renamesOf, List.filterMap]
        simp only [processRenames, hgf]]
  · intro hgf
    exact ⟨mset (mset snap f none) t none,
      applyOperations_single_rename P f t snap none hgf,
      mget_mset_same _ _ _⟩

/-- C9 counterexample: renaming a path onto itself (`from = to`, both
trivially keys) succeeds but leaves `from` carrying its content rather
than absent, refuting the claim's overwrite-and-absent description at
`from = to`. -/
theorem c9_counterexample :
    applyOperations P0 [.rename "a".data "a".data]
        [("a".data, some "v".data)] =
      .ok [("a".data, some "v".data)] ∧
    mget [("a".data, some "v".data)] "a".data ≠ some none :=
  ⟨by rfl, by decide⟩

/-- C9 witness: the amended theorem at `from = "a"`, `to = "b"` over
`{a ↦ "v", b ↦ "w"}`, and its failure characterisation at a missing
source. -/
theorem c9_witness :
    (∃ st, applyOperations P0 [.rename "a".data "b".data]
        [("a".data, some "v".data), ("b".data, some "w".data)] = .ok st ∧
      mget st "b".data = some (some "v".data) ∧
      mget st "a".data = some none) ∧
    ((∃ e, applyOperations P0 [.rename "q".data "r".data]
        [("a".data, some "v".data)] = .error e) ↔
      mget [("a".data, some "v".data)] "q".data = none) :=
  ⟨(c9_rename_overwrite P0 "a".data "b".data
      [("a".data, some "v".data), ("b".data, some "w".data)]).1
      (some "v".data) (by decide) (by rfl) (by decide),
   (c9_rename_overwrite P0 "q".data "r".data
      [("a".data, some "v".data)]).2.1⟩

/-! ## Characterisation of the fuzzy-match candidate loop (C3) -/

theorem bestLoop_low (target : Str) :
    ∀ (l : List Str) (best : Option Str) (highest : Int),
      (∀ c ∈ l, (segScore target c : Int) < highest) →
      bestLoop target l best highest = best := by
  intro l
  induction l with
  | nil => intro best highest _; rfl
  | cons d rest ih =>
    intro best highest h
    have hd := h d (List.mem_cons_self _ _)
    have h1 : ¬ highest < (segScore target d : Int) := by omega
    have h2 : ¬ ((segScore target d : Int) = highest) := by omega
    simp only [bestLoop, if_neg h1, if_neg h2]
    exact ih best highest fun c hc => h c (List.mem_cons_of_mem _ hc)

theorem bestLoop_none (target : Str) :
    ∀ (l : List Str) (highest : Int),
      (∀ c ∈ l, (segScore target c : Int) ≤ highest) →
      bestLoop target l none highest = none := by
  intro l
  induction l with
  | nil => intro highest _; rfl
  | cons d rest ih =>
    intro highest h
    have hd := h d (List.mem_cons_self _ _)
    have h1 : ¬ highest < (segScore target d : Int) := by omega
    by_cases h2 : (segScore target d : Int) = highest
    · simp only [bestLoop, if_neg h1, if_pos h2]
      exact ih highest fun c hc => h c (List.mem_cons_of_mem _ hc)
    · simp only [bestLoop, if_neg h1, if_neg h2]
      exact ih highest fun c hc => h c (List.mem_cons_of_mem _ hc)

theorem bestLoop_hit (target : Str) :
    ∀ (l : List Str) (best : Option Str) (highest : Int),
      (∃ c ∈ l, (segScore target c : Int) = highest) →
      (∀ x ∈ l, (segScore target x : Int) ≤ highest) →
      bestLoop target l best highest = none := by
  intro l
  induction l with
  | nil =>
    intro best highest hex _
    obtain ⟨c, hc, _⟩ := hex
    cases hc
  | cons d rest ih =>
    intro best highest hex hle
    have hd := hle d (List.mem_cons_self _ _)
    have h1 : ¬ highest < (segScore target d : Int) := by omega
    by_cases h2 : (segScore target d : Int) = highest
    · simp only [bestLoop, if_neg h1, if_pos h2]
      exact bestLoop_none target rest highest
        fun x hx => hle x (List.mem_cons_of_mem _ hx)
    · simp only [bestLoop, if_neg h1, if_neg h2]
      obtain ⟨c, hc, hceq⟩ := hex
      have hcr : c ∈ rest := by
        rcases List.mem_cons.mp hc with h | h
        · exact absurd (h ▸ hceq) h2
        · exact h
      exact ih best highest ⟨c, hcr, hceq⟩
        fun x hx => hle x (List.mem_cons_of_mem _ hx)

theorem bestLoop_unique (target : Str) :
    ∀ (l : List Str) (best : Option Str) (highest : Int) (c : Str),
      l.Nodup → c ∈ l → highest < (segScore target c : Int) →
      (∀ c' ∈ l, c' ≠ c → segScore target c' < segScore target c) →
      bestLoop target l best highest = some c := by
  intro l
  induction l with
  | nil => intro _ _ c _ hc; cases hc
  | cons d rest ih =>
    intro best highest c hnd hc hhi hmax
    by_cases hdc : d = c
    · subst hdc
      simp only [bestLoop, if_pos hhi]
      apply bestLoop_low
      intro x hx
      have hxd : x ≠ d := fun h => (List.nodup_cons.mp hnd).1 (h ▸ hx)
      exact_mod_cast hmax x (List.mem_cons_of_mem _ hx) hxd
    · have hcr : c ∈ rest :=
        (List.mem_cons.mp hc).resolve_left fun h => hdc h.symm
      have hds : segScore target d < segScore target c :=
        hmax d (List.mem_cons_self _ _) hdc
      have hmax' : ∀ c' ∈ rest, c' ≠ c →
          segScore target c' < segScore target c :=
        fun c' hc' => hmax c' (List.mem_cons_of_mem _ hc')
      have hnd' : rest.Nodup := (List.nodup_cons.mp hnd).2
      by_cases h1 : highest < (segScore target d : Int)
      · simp only [bestLoop, if_pos h1]
        exact ih (some d) _ c hnd' hcr (by exact_mod_cast hds) hmax'
      · by_cases h2 : (segScore target d : Int) = highest
        · simp only [bestLoop, if_neg h1, if_pos h2]
          exact ih none highest c hnd' hcr hhi hmax'
        · simp only [bestLoop, if_neg h1, if_neg h2]
          exact ih best highest c hnd' hcr hhi hmax'

theorem bestLoop_tie (target : Str) :
    ∀ (l : List Str) (best : Option Str) (highest : Int) (c1 c2 : Str),
      c1 ∈ l → c2 ∈ l → c1 ≠ c2 →
      segScore target c1 = segScore target c2 →
      (∀ x ∈ l, segScore target x ≤ segScore target c1) →
      highest < (segScore target c1 : Int) →
      bestLoop target l best highest = none := by
  intro l
  induction l with
  | nil => intro _ _ c1 _ hc1; cases hc1
  | cons d rest ih =>
    intro best highest c1 c2 hc1 hc2 hne heq hle hhi
    by_cases hdM : segScore target d = segScore target c1
    · have h1 : highest < (segScore target d : Int) := by
        rw [hdM]; exact hhi
      simp only [bestLoop, if_pos h1]
      have hwit : ∃ w ∈ rest, (segScore target w : Int) =
          (segScore target d : Int) := by
        by_cases hd1 : d = c1
        · refine ⟨c2, ?_, ?_⟩
          · exact (List.mem_cons.mp hc2).resolve_left
              fun h => hne ((hd1 ▸ h).symm)
          · rw [hdM, heq]
        · refine ⟨c1, (List.mem_cons.mp hc1).resolve_left
            fun h => hd1 h.symm, ?_⟩
          rw [hdM]
      exact bestLoop_hit target rest (some d) _ hwit
        fun x hx => by
          have := hle x (List.mem_cons_of_mem _ hx)
          rw [← hdM] at this
          exact_mod_cast this
    · have hdlt : segScore target d < segScore target c1 :=
        lt_of_le_of_ne (hle d (List.mem_cons_self _ _)) hdM
      have hc1r : c1 ∈ rest :=
        (List.mem_cons.mp hc1).resolve_left fun h => hdM (by rw [h])
      have hc2r : c2 ∈ rest :=
        (List.mem_cons.mp hc2).resolve_left
          fun h => hdM (by rw [← h, ← heq])
      have hle' : ∀ x ∈ rest, segScore target x ≤ segScore target c1 :=
        fun x hx => hle x (List.mem_cons_of_mem _ hx)
      by_cases h1 : highest < (segScore target d : Int)
      · simp only [bestLoop, if_pos h1]
        exact ih (some d) _ c1 c2 hc1r hc2r hne heq hle'
          (by exact_mod_cast hdlt)
      · by_cases h2 : (segScore target d : Int) = highest
        · simp only [bestLoop, if_neg h1, if_pos h2]
          exact ih none highest c1 c2 hc1r hc2r hne heq hle' hhi
        · simp only [bestLoop, if_neg h1, if_neg h2]
          exact ih best highest c1 c2 hc1r hc2r hne heq hle' hhi

/-- C3 (amended).  The fuzzy-repair stage of the planner: a delete or
non-`replace` write whose remapped path is missing is rewritten to the
unique snapshot key with an equal basename when exactly one exists, to the
unique maximum suffix-scorer among several, and is left unchanged on a tie
at the maximum; a `replace` write is never rewritten; and — the amendment
the counterexample forces — an operation whose target basename is empty is
never rewritten either, whatever the candidates. -/
theorem c3_fuzzy_repair :
    (∀ (st : SnapshotM) (p : Str) (w : WDOp) (k : Str),
      isPatchOrDeleteOp w = true → mhas st p = false →
      basename p ≠ [] →
      (st.map Prod.fst).filter (fun q => basename q = basename p) = [k] →
      fuzzyStep st (st.map Prod.fst) (p, w) = (k, w))
  ∧ (∀ (st : SnapshotM) (p : Str) (w : WDOp) (cs : List Str) (c : Str),
      isPatchOrDeleteOp w = true → mhas st p = false →
      basename p ≠ [] →
      (st.map Prod.fst).filter (fun q => basename q = basename p) = cs →
      2 ≤ cs.length → cs.Nodup → c ∈ cs →
      (∀ c' ∈ cs, c' ≠ c → segScore p c' < segScore p c) →
      fuzzyStep st (st.map Prod.fst) (p, w) = (c, w))
  ∧ (∀ (st : SnapshotM) (p : Str) (w : WDOp) (cs : List Str) (c1 c2 : Str),
      isPatchOrDeleteOp w = true → mhas st p = false →
      basename p ≠ [] →
      (st.map Prod.fst).filter (fun q => basename q = basename p) = cs →
      2 ≤ cs.length → c1 ∈ cs → c2 ∈ cs → c1 ≠ c2 →
      segScore p c1 = segScore p c2 →
      (∀ x ∈ cs, segScore p x ≤ segScore p c1) →
      fuzzyStep st (st.map Prod.fst) (p, w) = (p, w))
  ∧ (∀ (st : SnapshotM) (avail : List Str) (p c : Str),
      fuzzyStep st avail (p, .wwrite c .replace) = (p, .wwrite c .replace))
  ∧ (∀ (st : SnapshotM) (p : Str) (w : WDOp), basename p = [] →
      fuzzyStep st (st.map Prod.fst) (p, w) = (p, w)) := by
  refine ⟨?_, ?_, ?_, ?_, ?_⟩
  · intro st p w k hpd hmiss hbn hfil
    simp only [fuzzyStep, hpd, hmiss, Bool.not_false, Bool.and_true, if_pos]
    rw [show findBestFileMatch p (st.map Prod.fst) = some k by
      simp only [findBestFileMatch, if_neg hbn, hfil]]
  · intro st p w cs c hpd hmiss hbn hfil hlen hnd hc hmax
    simp only [fuzzyStep, hpd, hmiss, Bool.not_false, Bool.and_true, if_pos]
    rw [show findBestFileMatch p (st.map Prod.fst) = some c by
      simp only [findBestFileMatch, if_neg hbn, hfil]
      match cs, hlen with
      | a :: b :: rest, _ =>
        exact bestLoop_unique p (a :: b :: rest) none (-1) c hnd hc
          (by omega) hmax]
  · intro st p w cs c1 c2 hpd hmiss hbn hfil hlen hc1 hc2 hne heq hle
    simp only [fuzzyStep, hpd, hmiss, Bool.not_false, Bool.and_true, if_pos]
    rw [show findBestFileMatch p (st.map Prod.fst) = none by
      simp only [findBestFileMatch, if_neg hbn, hfil]
      match cs, hlen with
      | a :: b :: rest, _ =>
        exact bestLoop_tie p (a :: b :: rest) none (-1) c1 c2 hc1 hc2 hne heq
          hle (by omega)]
  · intro st avail p c
    simp [fuzzyStep, isPatchOrDeleteOp]
  · intro st p w hbn
    simp only [fuzzyStep]
    rw [show findBestFileMatch p (st.map Prod.fst) = none by
      simp only [findBestFileMatch, if_pos hbn]]
    split <;> rfl

/-- C3 counterexample: with snapshot key `""` and a delete of the missing
path `"/"`, exactly one snapshot key has a basename equal to
`basename "/" = ""`, yet the planner leaves the path unchanged (the code
guards on an empty target basename), refuting the claim as stated. -/
theorem c3_counterexample :
    mhas [(([] : Str), some "c".data)] "/".data = false ∧
    ((([(([] : Str), some "c".data)] : SnapshotM).map Prod.fst).filter
      (fun q => basename q = basename "/".data)) = [[]] ∧
    fuzzyStep [(([] : Str), some "c".data)] [[]] ("/".data, .wdelete) =
      ("/".data, .wdelete) ∧
    ("/".data : Str) ≠ [] := by
  refine ⟨by decide, by decide, by decide, by decide⟩

/-- C3 witness: the amended theorem applied to the spec's scenarios — the
single-candidate repair `util.ts ↝ src/deep/util.ts`, and the
unique-maximum repair `a/foo.ts ↝ b/a/foo.ts` over two basename-equal
candidates. -/
theorem c3_witness :
    fuzzyStep [("src/deep/util.ts".data, some "x".data)]
        ["src/deep/util.ts".data] ("util.ts".data, .wdelete) =
      ("src/deep/util.ts".data, .wdelete) ∧
    fuzzyStep
        [("b/a/foo.ts".data, some "x".data), ("lib/foo.ts".data, some "y".data)]
        ["b/a/foo.ts".data, "lib/foo.ts".data]
        ("a/foo.ts".data, .wwrite "d".data .standardDiff) =
      ("b/a/foo.ts".data, .wwrite "d".data .standardDiff) :=
  ⟨c3_fuzzy_repair.1 [("src/deep/util.ts".data, some "x".data)]
      "util.ts".data .wdelete "src/deep/util.ts".data (by decide) (by decide)
      (by decide) (by decide),
   c3_fuzzy_repair.2.1
      [("b/a/foo.ts".data, some "x".data), ("lib/foo.ts".data, some "y".data)]
      "a/foo.ts".data (.wwrite "d".data .standardDiff)
      ["b/a/foo.ts".data, "lib/foo.ts".data] "b/a/foo.ts".data (by decide)
      (by decide) (by decide) (by decide) (by decide) (by decide) (by decide)
      (by decide)⟩

/-! ## Frame property: the input snapshot is never mutated (C8)

A small heap of JS `Map` objects makes the mutation discipline of
`applyOperations` visible: the input map `originalFiles` is one cell, the
`new Map(originalFiles)` copy is a freshly allocated cell, and every
`fileStates.set` of the source is a `stMapSet` on the fresh handle. -/

/-- A heap of map objects; handles are indices. -/
abbrev MapStore := List SnapshotM

/-- Read a map object. -/
def stRead (s : MapStore) (h : Nat) : SnapshotM := s.getD h []

/-- One `fileStates.set(k, v)` against the map object at handle `h`. -/
def stMapSet (s : MapStore) (h : Nat) (k : Str) (v : Option Str) : MapStore :=
  s.set h (mset (stRead s h) k v)

/-- Store version of the rename loop of `applyOperations`: every write
targets the working handle `hf`. -/
def processRenamesSt : List (Str × Str) → MapStore → Nat → MapSS →
    MapStore × Except Str MapSS
  | [], s, _, pm => (s, .ok pm)
  | (f, t) :: rest, s, hf, pm =>
    match mget (stRead s hf) f with
    | none => (s, .error (renameErr f))
    | some content =>
      processRenamesSt rest (stMapSet (stMapSet s hf f none) hf t content) hf
        (updatePm pm f t)

/-- Store version of the per-file application loop of `applyOperations`. -/
def applyGroupsSt (P : Patchers) : List (Str × List WDOp) → MapStore → Nat →
    MapStore × Except Str Unit
  | [], s, _ => (s, .ok ())
  | (p, ops) :: rest, s, hf =>
    match applyFileOperations P p ops (mget (stRead s hf) p).join with
    | .ok content => applyGroupsSt P rest (stMapSet s hf p content) hf
    | .error e => (s, .error e)

/-- Store version of `applyOperations`: allocate the `new
Map(originalFiles)` copy at the fresh handle `s.length`, run the pipeline
writing only to it, and return the handle of the result map on success. -/
def applyOperationsSt (P : Patchers) (operations : List FileOperation)
    (s : MapStore) (horig : Nat) : MapStore × Except Str Nat :=
  match processRenamesSt (renamesOf operations) (s ++ [stRead s horig])
      s.length [] with
  | (s2, .error e) => (s2, .error e)
  | (s2, .ok pm) =>
    match applyGroupsSt P
        (groupByPath (((othersOf operations).map (remapOp pm)).map
          (fuzzyStep (stRead s2 s.length)
            ((stRead s2 s.length).map Prod.fst)))) s2 s.length with
    | (s3, .ok _) => (s3, .ok s.length)
    | (s3, .error e) => (s3, .error e)

theorem getD_set_ne :
    ∀ (s : MapStore) (j h : Nat), h ≠ j → ∀ m : SnapshotM,
      (s.set j m).getD h [] = s.getD h [] := by
  intro s
  induction s with
  | nil => intro j h _ m; rfl
  | cons a rest ih =>
    intro j h hne m
    cases j with
    | zero =>
      cases h with
      | zero => exact absurd rfl hne
      | succ h' => rfl
    | succ j' =>
      cases h with
      | zero => rfl
      | succ h' =>
        show (rest.set j' m).getD h' [] = rest.getD h' []
        exact ih j' h' (fun he => hne (by rw [he])) m

theorem stRead_stMapSet_ne (s : MapStore) (j h : Nat) (k : Str)
    (v : Option Str) (hne : h ≠ j) :
    stRead (stMapSet s j k v) h = stRead s h :=
  getD_set_ne s j h hne _

theorem processRenamesSt_frame (rs : List (Str × Str)) :
    ∀ (s : MapStore) (hf : Nat) (pm : MapSS) (h : Nat), h ≠ hf →
      stRead (processRenamesSt rs s hf pm).1 h = stRead s h := by
  induction rs with
  | nil => intro s hf pm h _; rfl
  | cons ft rest ih =>
    intro s hf pm h hne
    obtain ⟨f, t⟩ := ft
    simp only [processRenamesSt]
    cases mget (stRead s hf) f with
    | none => rfl
    | some content =>
      rw [ih _ hf _ h hne, stRead_stMapSet_ne _ _ _ _ _ hne,
        stRead_stMapSet_ne _ _ _ _ _ hne]

theorem applyGroupsSt_frame (P : Patchers) (gs : List (Str × List WDOp)) :
    ∀ (s : MapStore) (hf : Nat) (h : Nat), h ≠ hf →
      stRead (applyGroupsSt P gs s hf).1 h = stRead s h := by
  induction gs with
  | nil => intro s hf h _; rfl
  | cons g rest ih =>
    intro s hf h hne
    obtain ⟨p, ops⟩ := g
    simp only [applyGroupsSt]
    cases applyFileOperations P p ops (mget (stRead s hf) p).join with
    | ok content => rw [ih _ hf h hne, stRead_stMapSet_ne _ _ _ _ _ hne]
    | error e => rfl

theorem stRead_append_self (s : MapStore) (m : SnapshotM) (h : Nat)
    (hlt : h < s.length) : stRead (s ++ [m]) h = stRead s h := by
  unfold stRead
  induction s generalizing h with
  | nil => cases hlt
  | cons a rest ih =>
    cases h with
    | zero => rfl
    | succ h' => exact ih h' (Nat.lt_of_succ_lt_succ hlt)

/-- C8.  `applyOperations` never mutates its input snapshot: whether the
call succeeds or fails, the map object at the input handle is unchanged,
and on success the returned snapshot is the freshly allocated copy, not
the input object. -/
theorem c8_input_not_mutated (P : Patchers) (operations : List FileOperation)
    (s : MapStore) (horig : Nat) (hlt : horig < s.length) :
    stRead (applyOperationsSt P operations s horig).1 horig =
      stRead s horig ∧
    (∀ hres, (applyOperationsSt P operations s horig).2 = .ok hres →
      hres ≠ horig) := by
  have hne : horig ≠ s.length := Nat.ne_of_lt hlt
  have hbase : stRead (s ++ [stRead s horig]) horig = stRead s horig :=
    stRead_append_self s _ horig hlt
  rcases h2 : processRenamesSt (renamesOf operations)
      (s ++ [stRead s horig]) s.length [] with ⟨s2, r2⟩
  have hs2 : stRead s2 horig = stRead s horig := by
    have := processRenamesSt_frame (renamesOf operations)
      (s ++ [stRead s horig]) s.length [] horig hne
    rw [h2] at this
    exact this.trans hbase
  cases r2 with
  | error e =>
    have hfull : applyOperationsSt P operations s horig =
        (s2, Except.error e) := by
      unfold applyOperationsSt
      rw [h2]
    rw [hfull]
    exact ⟨hs2, fun hres hcontra =>
      absurd (show (Except.error e : Except Str Nat) = .ok hres from hcontra)
        (by simp)⟩
  | ok pm =>
    rcases h3 : applyGroupsSt P
        (groupByPath (((othersOf operations).map (remapOp pm)).map
          (fuzzyStep (stRead s2 s.length)
            ((stRead s2 s.length).map Prod.fst)))) s2 s.length with ⟨s3, r3⟩
    have hs3 : stRead s3 horig = stRead s horig := by
      have := applyGroupsSt_frame P
        (groupByPath (((othersOf operations).map (remapOp pm)).map
          (fuzzyStep (stRead s2 s.length)
            ((stRead s2 s.length).map Prod.fst)))) s2 s.length horig hne
      rw [h3] at this
      exact this.trans hs2
    cases r3 with
    | ok u =>
      have hfull : applyOperationsSt P operations s horig =
          (s3, Except.ok s.length) := by
        unfold applyOperationsSt
        rw [h2]
        simp only [h3]
      rw [hfull]
      refine ⟨hs3, fun hres hr => ?_⟩
      have hr' : (Except.ok s.length : Except Str Nat) = .ok hres := hr
      have hlen : s.length = hres := by injection hr'
      omega
    | error e =>
      have hfull : applyOperationsSt P operations s horig =
          (s3, Except.error e) := by
        unfold applyOperationsSt
        rw [h2]
        simp only [h3]
      rw [hfull]
      exact ⟨hs3, fun hres hcontra =>
        absurd (show (Except.error e : Except Str Nat) = .ok hres from hcontra)
          (by simp)⟩

/-- C8 witness: the frame theorem applied to a concrete store, handle and
operation list (a delete plus a rename over a two-key snapshot). -/
theorem c8_witness :
    stRead (applyOperationsSt P0
        [.delete "a".data, .rename "b".data "c".data]
        [[("a".data, some "x".data), ("b".data, some "y".data)]] 0).1 0 =
      stRead [[("a".data, some "x".data), ("b".data, some "y".data)]] 0 :=
  (c8_input_not_mutated P0 [.delete "a".data, .rename "b".data "c".data]
    [[("a".data, some "x".data), ("b".data, some "y".data)]] 0
    (by decide)).1

/-! ## Line-change accounting (src/patch.ts, calculateLcsLength)

The source computes LCS length with a two-row dynamic program over the
prefixes; the reference definition below is the textbook head recursion,
and the equivalence is proved through a row invariant. -/

/-- Reference LCS length (head recursion). -/
def lcsLen {α : Type} [DecidableEq α] : List α → List α → Nat
  | [], _ => 0
  | _ :: _, [] => 0
  | a :: as, b :: bs =>
    if a = b then lcsLen as bs + 1
    else max (lcsLen (a :: as) bs) (lcsLen as (b :: bs))
termination_by l1 l2 => l1.length + l2.length

theorem lcsLen_nil_right {α : Type} [DecidableEq α] (r : List α) :
    lcsLen r [] = 0 := by
  cases r <;> simp [lcsLen]

theorem lcsLen_ub {α : Type} [DecidableEq α] :
    ∀ (xs ys w : List α), w.Sublist xs → w.Sublist ys →
      w.length ≤ lcsLen xs ys := by
  intro xs
  induction xs with
  | nil =>
    intro ys w hx _
    rw [List.sublist_nil.mp hx]
    exact Nat.zero_le _
  | cons a as ihx =>
    intro ys
    induction ys with
    | nil =>
      intro w _ hy
      rw [List.sublist_nil.mp hy]
      exact Nat.zero_le _
    | cons b bs ihy =>
      intro w hx hy
      by_cases hab : a = b
      · subst hab
        rw [show lcsLen (a :: as) (a :: bs) = lcsLen as bs + 1 by
          simp [lcsLen]]
        rcases List.sublist_cons_iff.mp hx with hx' | ⟨r, hweq, hr⟩
        · rcases List.sublist_cons_iff.mp hy with hy' | ⟨r', hweq', hr'⟩
          · exact le_trans (ihx bs w hx' hy') (Nat.le_succ _)
          · subst hweq'
            have hr'as : r'.Sublist as :=
              (List.sublist_cons_self a r').trans hx'
            simpa using Nat.succ_le_succ (ihx bs r' hr'as hr')
        · subst hweq
          rcases List.sublist_cons_iff.mp hy with hy' | ⟨r', hweq', hr'⟩
          · have hrbs : r.Sublist bs :=
              (List.sublist_cons_self a r).trans hy'
            simpa using Nat.succ_le_succ (ihx bs r hr hrbs)
          · have : r = r' := by
              have := hweq'
              injection this with _ h2
            subst this
            simpa using Nat.succ_le_succ (ihx bs r hr hr')
      · rw [show lcsLen (a :: as) (b :: bs) =
            max (lcsLen (a :: as) bs) (lcsLen as (b :: bs)) by
          simp [lcsLen, hab]]
        rcases List.sublist_cons_iff.mp hx with hx' | ⟨r, hweq, hr⟩
        · exact le_max_of_le_right (ihx (b :: bs) w hx' hy)
        · rcases List.sublist_cons_iff.mp hy with hy' | ⟨r', hweq', hr'⟩
          · exact le_max_of_le_left (ihy w hx hy')
          · exfalso
            rw [hweq] at hweq'
            injection hweq' with h1 _
            exact hab h1

theorem lcsLen_wit {α : Type} [DecidableEq α] :
    ∀ (xs ys : List α),
      ∃ w : List α, w.Sublist xs ∧ w.Sublist ys ∧ w.length = lcsLen xs ys := by
  intro xs
  induction xs with
  | nil =>
    intro ys
    exact ⟨[], List.nil_sublist _, List.nil_sublist _, by simp [lcsLen]⟩
  | cons a as ihx =>
    intro ys
    induction ys with
    | nil =>
      exact ⟨[], List.nil_sublist _, List.nil_sublist _, by
        rw [lcsLen_nil_right]; rfl⟩
    | cons b bs ihy =>
      by_cases hab : a = b
      · subst hab
        obtain ⟨w, hw1, hw2, hl⟩ := ihx bs
        refine ⟨a :: w, List.cons_sublist_cons.mpr hw1,
          List.cons_sublist_cons.mpr hw2, ?_⟩
        rw [show lcsLen (a :: as) (a :: bs) = lcsLen as bs + 1 by
          simp [lcsLen]]
        simpa using hl
      · rw [show lcsLen (a :: as) (b :: bs) =
            max (lcsLen (a :: as) bs) (lcsLen as (b :: bs)) by
          simp [lcsLen, hab]]
        rcases Nat.le_total (lcsLen (a :: as) bs) (lcsLen as (b :: bs)) with
          hle | hle
        · obtain ⟨w, hw1, hw2, hl⟩ := ihx (b :: bs)
          refine ⟨w, hw1.trans (List.sublist_cons_self a as), hw2, ?_⟩
          rw [hl, Nat.max_eq_right hle]
        · obtain ⟨w, hw1, hw2, hl⟩ := ihy
          refine ⟨w, hw1, hw2.trans (List.sublist_cons_self b bs), ?_⟩
          rw [hl, Nat.max_eq_left hle]

/-- The inner `for j` loop of `calculateLcsLength`: `diag` plays `prev`
(the stale `dp[j-1]`), `left` is the freshly written `dp[j-1]`, and the
head of the old-row suffix is the stale `dp[j]`. -/
def stepGo {α : Type} [DecidableEq α] (x : α) :
    List α → List Nat → Nat → Nat → List Nat
  | [], _, _, _ => []
  | _ :: _, [], _, _ => []
  | y :: ys, o :: os, diag, left =>
    (if x = y then diag + 1 else max o left) ::
      stepGo x ys os o (if x = y then diag + 1 else max o left)

/-- One outer-loop (`for i`) iteration of `calculateLcsLength`: `dp[0]`
is never written and stays `0`. -/
def lcsRow {α : Type} [DecidableEq α] (x : α) (s2 : List α)
    (row : List Nat) : List Nat :=
  0 :: stepGo x s2 row.tail (row.headD 0) 0

/-- The full dynamic program of `calculateLcsLength`: fold the outer
sequence over the zero-filled row and read `dp[n]`. -/
def lcsDP {α : Type} [DecidableEq α] (s1 s2 : List α) : Nat :=
  (s1.foldl (fun row x => lcsRow x s2 row)
    (List.replicate (s2.length + 1) 0)).getLastD 0

/-- `calculateLcsLength` of src/patch.ts: swap so the longer sequence is
outer, then run the DP. -/
def calculateLcsLength {α : Type} [DecidableEq α] (a b : List α) : Nat :=
  if a.length < b.length then lcsDP b a else lcsDP a b

/-- The row the DP maintains: entry `j` is `lcsLen r (rev (take j s2))`,
built by carrying the reversed prefix. -/
def buildRowAux {α : Type} [DecidableEq α] (r qrev : List α) :
    List α → List Nat
  | [] => []
  | y :: ys => lcsLen r (y :: qrev) :: buildRowAux r (y :: qrev) ys

/-- The full invariant row, starting with `dp[0] = 0`. -/
def buildRow {α : Type} [DecidableEq α] (r s2 : List α) : List Nat :=
  0 :: buildRowAux r [] s2

theorem stepGo_spec {α : Type} [DecidableEq α] (x : α) :
    ∀ (ys : List α) (r qrev : List α),
      stepGo x ys (buildRowAux r qrev ys) (lcsLen r qrev)
        (lcsLen (x :: r) qrev) = buildRowAux (x :: r) qrev ys := by
  intro ys
  induction ys with
  | nil => intro r qrev; rfl
  | cons y ys ih =>
    intro r qrev
    have hval : (if x = y then lcsLen r qrev + 1
        else max (lcsLen r (y :: qrev)) (lcsLen (x :: r) qrev)) =
        lcsLen (x :: r) (y :: qrev) := by
      by_cases hxy : x = y
      · simp [lcsLen, hxy]
      · simp [lcsLen, hxy, Nat.max_comm]
    simp only [stepGo, buildRowAux, hval]
    rw [ih r (y :: qrev)]

theorem lcsRow_spec {α : Type} [DecidableEq α] (x : α) (s2 r : List α) :
    lcsRow x s2 (buildRow r s2) = buildRow (x :: r) s2 := by
  unfold lcsRow buildRow
  simp only [List.tail_cons, List.headD_cons]
  have hspec := stepGo_spec x s2 r []
  rw [lcsLen_nil_right r, lcsLen_nil_right (x :: r)] at hspec
  rw [hspec]

theorem buildRowAux_nil_left {α : Type} [DecidableEq α] (qrev : List α) :
    ∀ ys : List α, buildRowAux ([] : List α) qrev ys =
      List.replicate ys.length 0 := by
  intro ys
  induction ys generalizing qrev with
  | nil => rfl
  | cons y ys ih =>
    simp only [buildRowAux, List.length_cons, List.replicate_succ]
    rw [ih (y :: qrev)]
    simp [lcsLen]

theorem buildRow_nil {α : Type} [DecidableEq α] (s2 : List α) :
    buildRow ([] : List α) s2 = List.replicate (s2.length + 1) 0 := by
  unfold buildRow
  rw [buildRowAux_nil_left]
  rfl

theorem foldl_lcsRow {α : Type} [DecidableEq α] (s2 : List α) :
    ∀ (l r : List α),
      l.foldl (fun row x => lcsRow x s2 row) (buildRow r s2) =
        buildRow (l.reverse ++ r) s2 := by
  intro l
  induction l with
  | nil => intro r; simp
  | cons x l ih =>
    intro r
    simp only [List.foldl_cons, List.reverse_cons]
    rw [lcsRow_spec, ih (x :: r)]
    congr 1
    simp

theorem buildRowAux_getLastD {α : Type} [DecidableEq α] (r : List α) :
    ∀ (ys qrev : List α) (d : Nat),
      (buildRowAux r qrev ys).getLastD d =
        if ys = [] then d else lcsLen r (ys.reverse ++ qrev) := by
  intro ys
  induction ys with
  | nil => intro qrev d; rfl
  | cons y ys ih =>
    intro qrev d
    simp only [buildRowAux, List.getLastD_cons]
    rw [ih (y :: qrev) (lcsLen r (y :: qrev))]
    by_cases hys : ys = []
    · subst hys
      simp
    · simp only [if_neg hys, if_neg (List.cons_ne_nil y ys)]
      congr 1
      simp

theorem buildRow_getLastD {α : Type} [DecidableEq α] (r s2 : List α) :
    (buildRow r s2).getLastD 0 = lcsLen r s2.reverse := by
  unfold buildRow
  rw [List.getLastD_cons, buildRowAux_getLastD]
  by_cases h : s2 = []
  · subst h
    simp [lcsLen_nil_right]
  · simp [h]

theorem lcsDP_eq {α : Type} [DecidableEq α] (s1 s2 : List α) :
    lcsDP s1 s2 = lcsLen s1.reverse s2.reverse := by
  unfold lcsDP
  rw [← buildRow_nil s2, foldl_lcsRow, List.append_nil, buildRow_getLastD]

/-- The specification of an LCS length: some common subsequence attains it
and none exceeds it. -/
def IsMaxCommonSublistLen {α : Type} (L : Nat) (a b : List α) : Prop :=
  (∃ w : List α, w.Sublist a ∧ w.Sublist b ∧ w.length = L) ∧
  (∀ w : List α, w.Sublist a → w.Sublist b → w.length ≤ L)

theorem lcsLen_is_max {α : Type} [DecidableEq α] (a b : List α) :
    IsMaxCommonSublistLen (lcsLen a b) a b :=
  ⟨lcsLen_wit a b, fun w => lcsLen_ub a b w⟩

theorem isMax_reverse {α : Type} {L : Nat} {a b : List α}
    (h : IsMaxCommonSublistLen L a.reverse b.reverse) :
    IsMaxCommonSublistLen L a b := by
  obtain ⟨⟨w, hw1, hw2, hl⟩, hub⟩ := h
  constructor
  · refine ⟨w.reverse, ?_, ?_, by simpa using hl⟩
    · have := hw1.reverse
      rwa [List.reverse_reverse] at this
    · have := hw2.reverse
      rwa [List.reverse_reverse] at this
  · intro w hw1 hw2
    have := hub w.reverse (by simpa using hw1.reverse)
      (by simpa using hw2.reverse)
    simpa using this

theorem isMax_comm {α : Type} {L : Nat} {a b : List α}
    (h : IsMaxCommonSublistLen L a b) : IsMaxCommonSublistLen L b a := by
  obtain ⟨⟨w, hw1, hw2, hl⟩, hub⟩ := h
  exact ⟨⟨w, hw2, hw1, hl⟩, fun w h1 h2 => hub w h2 h1⟩

/-- The DP of the source computes exactly the LCS-length specification. -/
theorem calculateLcsLength_is_max {α : Type} [DecidableEq α]
    (a b : List α) : IsMaxCommonSublistLen (calculateLcsLength a b) a b := by
  unfold calculateLcsLength
  by_cases h : a.length < b.length
  · rw [if_pos h, lcsDP_eq]
    exact isMax_reverse (isMax_comm (lcsLen_is_max b.reverse a.reverse))
  · rw [if_neg h, lcsDP_eq]
    exact isMax_reverse (lcsLen_is_max a.reverse b.reverse)

/-! ## calculateLineChanges (src/patch.ts) -/

/-- The `{added, removed, difference}` result; JS numbers modelled as
integers. -/
structure LineDelta where
  added : Int
  removed : Int
  difference : Int
deriving DecidableEq, Repr

/-- `calculateLineChanges` of src/patch.ts.  `originals.get(p) ?? null`
is the join of the two option layers; the delete branch tests JS
truthiness (`oldContent ? oldContent.split('\n') : []`), so both `null`
and `""` count zero lines there, while the write branch uses
`oldContent?.split('\n') ?? []` and the explicit
`=== null || === ''` guards. -/
def calculateLineChanges (op : FileOperation)
    (originalFiles newFiles : SnapshotM) : LineDelta :=
  match op with
  | .rename _ _ => ⟨0, 0, 0⟩
  | .delete p =>
    match (mget originalFiles p).join with
    | none => ⟨0, 0, 0⟩
    | some c =>
      if c = [] then ⟨0, 0, 0⟩
      else ⟨0, ((splitChar '\n' c).length : Int),
        ((splitChar '\n' c).length : Int)⟩
  | .write p _ _ =>
    match (mget originalFiles p).join, (mget newFiles p).join with
    | oldContent, newContent =>
      if oldContent = newContent then ⟨0, 0, 0⟩
      else
        if oldContent = none ∨ oldContent = some [] then
          ⟨((newContent.elim [] (splitChar '\n')).length : Int), 0,
            ((newContent.elim [] (splitChar '\n')).length : Int)⟩
        else if newContent = none ∨ newContent = some [] then
          ⟨0, ((oldContent.elim [] (splitChar '\n')).length : Int),
            ((oldContent.elim [] (splitChar '\n')).length : Int)⟩
        else
          ⟨((newContent.elim [] (splitChar '\n')).length : Int) -
              (calculateLcsLength (oldContent.elim [] (splitChar '\n'))
                (newContent.elim [] (splitChar '\n')) : Nat),
            ((oldContent.elim [] (splitChar '\n')).length : Int) -
              (calculateLcsLength (oldContent.elim [] (splitChar '\n'))
                (newContent.elim [] (splitChar '\n')) : Nat),
            (((newContent.elim [] (splitChar '\n')).length : Int) -
              (calculateLcsLength (oldContent.elim [] (splitChar '\n'))
                (newContent.elim [] (splitChar '\n')) : Nat)) +
            (((oldContent.elim [] (splitChar '\n')).length : Int) -
              (calculateLcsLength (oldContent.elim [] (splitChar '\n'))
                (newContent.elim [] (splitChar '\n')) : Nat))⟩

/-- C6.  For a write whose old and new contents are both non-empty and
differ, the accounting is exactly the LCS reference:
`added = |new_lines| − L`, `removed = |old_lines| − L`,
`difference = added + removed`, with `L` the longest-common-subsequence
length of the `\n`-split line lists. -/
theorem c6_line_changes_lcs (p c : Str) (ps : PatchStrategy)
    (origs news : SnapshotM) (o n : Str)
    (ho : (mget origs p).join = some o) (hn : (mget news p).join = some n)
    (ho1 : o ≠ []) (hn1 : n ≠ []) (hdiff : o ≠ n) :
    ∃ L : Nat,
      IsMaxCommonSublistLen L (splitChar '\n' o) (splitChar '\n' n) ∧
      calculateLineChanges (.write p c ps) origs news =
        ⟨((splitChar '\n' n).length : Int) - L,
         ((splitChar '\n' o).length : Int) - L,
         (((splitChar '\n' n).length : Int) - L) +
           (((splitChar '\n' o).length : Int) - L)⟩ := by
  refine ⟨calculateLcsLength (splitChar '\n' o) (splitChar '\n' n),
    calculateLcsLength_is_max _ _, ?_⟩
  have hne : ¬ (some o = some n) := by
    intro h
    exact hdiff (Option.some.injEq o n ▸ h)
  simp only [calculateLineChanges, ho, hn]
  rw [if_neg (by simpa using hdiff)]
  rw [if_neg (by simp [ho1])]
  rw [if_neg (by simp [hn1])]
  rfl

/-- C6 witness: the theorem at `o = "a\nb\nc\n"`, `n = "a\nx\nc\n"` —
four lines each, LCS three. -/
theorem c6_witness :
    ∃ L : Nat,
      IsMaxCommonSublistLen L (splitChar '\n' "a\nb\nc\n".data)
        (splitChar '\n' "a\nx\nc\n".data) ∧
      calculateLineChanges
          (.write "f.ts".data "a\nx\nc\n".data .replace)
          [("f.ts".data, some "a\nb\nc\n".data)]
          [("f.ts".data, some "a\nx\nc\n".data)] =
        ⟨((splitChar '\n' "a\nx\nc\n".data).length : Int) - L,
         ((splitChar '\n' "a\nb\nc\n".data).length : Int) - L,
         (((splitChar '\n' "a\nx\nc\n".data).length : Int) - L) +
           (((splitChar '\n' "a\nb\nc\n".data).length : Int) - L)⟩ :=
  c6_line_changes_lcs "f.ts".data "a\nx\nc\n".data .replace
    [("f.ts".data, some "a\nb\nc\n".data)]
    [("f.ts".data, some "a\nx\nc\n".data)]
    "a\nb\nc\n".data "a\nx\nc\n".data (by rfl) (by rfl) (by decide)
    (by decide) (by decide)

/-- C10.  `calculateLineChanges` is total and treats missing paths as
absent: the counts are never negative; a delete of a path missing from
the originals reports `removed = 0`; a write whose path is in neither
snapshot reports all zeros. -/
theorem c10_line_changes_total :
    (∀ (op : FileOperation) (origs news : SnapshotM),
      0 ≤ (calculateLineChanges op origs news).added ∧
      0 ≤ (calculateLineChanges op origs news).removed ∧
      0 ≤ (calculateLineChanges op origs news).difference)
  ∧ (∀ (p : Str) (origs news : SnapshotM), mget origs p = none →
      (calculateLineChanges (.delete p) origs news).removed = 0)
  ∧ (∀ (p c : Str) (ps : PatchStrategy) (origs news : SnapshotM),
      mget origs p = none → mget news p = none →
      calculateLineChanges (.write p c ps) origs news = ⟨0, 0, 0⟩) := by
  refine ⟨?_, ?_, ?_⟩
  · intro op origs news
    cases op with
    | rename f t => exact ⟨le_refl 0, le_refl 0, le_refl 0⟩
    | delete p =>
      simp only [calculateLineChanges]
      cases (mget origs p).join with
      | none => exact ⟨le_refl 0, le_refl 0, le_refl 0⟩
      | some c =>
        by_cases hc : c = []
        · simp only [if_pos hc]
          exact ⟨le_refl 0, le_refl 0, le_refl 0⟩
        · simp only [if_neg hc]
          refine ⟨le_refl 0, ?_, ?_⟩ <;> positivity
    | write p c ps =>
      simp only [calculateLineChanges]
      by_cases h0 : (mget origs p).join = (mget news p).join
      · rw [if_pos h0]
        exact ⟨le_refl 0, le_refl 0, le_refl 0⟩
      · rw [if_neg h0]
        by_cases h1 : (mget origs p).join = none ∨
            (mget origs p).join = some []
        · rw [if_pos h1]
          refine ⟨?_, le_refl 0, ?_⟩ <;> positivity
        · rw [if_neg h1]
          by_cases h2 : (mget news p).join = none ∨
              (mget news p).join = some []
          · rw [if_pos h2]
            refine ⟨le_refl 0, ?_, ?_⟩ <;> positivity
          · rw [if_neg h2]
            obtain ⟨⟨w, hw1, hw2, hl⟩, _⟩ :=
              calculateLcsLength_is_max
                (((mget origs p).join).elim [] (splitChar '\n'))
                (((mget news p).join).elim [] (splitChar '\n'))
            have hlo := hw1.length_le
            have hln := hw2.length_le
            rw [hl] at hlo hln
            refine ⟨?_, ?_, ?_⟩ <;> dsimp only <;> omega
  · intro p origs news hmiss
    simp [calculateLineChanges, hmiss, Option.join]
  · intro p c ps origs news hmiss1 hmiss2
    simp [calculateLineChanges, hmiss1, hmiss2, Option.join]

/-- C10 witness: the totality theorem applied to a delete of a path
missing from the originals and a write tracked in neither snapshot. -/
theorem c10_witness :
    (calculateLineChanges (.delete "gone.ts".data)
      [("a.ts".data, some "x".data)] []).removed = 0 ∧
    calculateLineChanges (.write "new.ts".data "y".data .standardDiff)
      [("a.ts".data, some "x".data)] [("b.ts".data, none)] = ⟨0, 0, 0⟩ ∧
    0 ≤ (calculateLineChanges (.delete "a.ts".data)
      [("a.ts".data, some "x".data)] []).removed :=
  ⟨c10_line_changes_total.2.1 "gone.ts".data [("a.ts".data, some "x".data)]
      [] (by decide),
   c10_line_changes_total.2.2 "new.ts".data "y".data .standardDiff
      [("a.ts".data, some "x".data)] [("b.ts".data, none)] (by decide)
      (by decide),
   (c10_line_changes_total.1 (.delete "a.ts".data)
      [("a.ts".data, some "x".data)] []).2.1⟩

/-! ## The response parser (src/parser.ts)

String utilities modelling the JS operations on the ASCII inputs of
interest. -/

/-- JS whitespace (`\s`, `trim`): the ASCII members suffice for the
modelled inputs. -/
def isJsSpace (c : Char) : Bool :=
  c == ' ' || c == '\t' || c == '\n' || c == '\r' || c == '\x0b' || c == '\x0c'

/-- A `\w` character. -/
def isWordChar (c : Char) : Bool := c.isAlpha || c.isDigit || c == '_'

/-- JS `String.trim`. -/
def jsTrim (s : Str) : Str :=
  ((s.dropWhile fun c => isJsSpace c).reverse.dropWhile
    fun c => isJsSpace c).reverse

/-- `strHasPre pre s`: `s` starts with `pre`. -/
def strHasPre : Str → Str → Bool
  | [], _ => true
  | _ :: _, [] => false
  | a :: as, b :: bs => a == b && strHasPre as bs

/-- JS `String.indexOf` (first occurrence of a pattern). -/
def idxOfSubAux (pat : Str) : Str → Nat → Option Nat
  | [], i => if pat = [] then some i else none
  | c :: r, i =>
    if strHasPre pat (c :: r) then some i else idxOfSubAux pat r (i + 1)

/-- JS `String.indexOf`. -/
def idxOfSub (s pat : Str) : Option Nat := idxOfSubAux pat s 0

/-- JS `String.includes`. -/
def strHasSub (s pat : Str) : Bool := (idxOfSub s pat).isSome

/-- `/^\r?\n/` removal: strip one leading CRLF or LF. -/
def stripLeadNL : Str → Str
  | '\r' :: '\n' :: r => r
  | '\n' :: r => r
  | s => s

/-- `/\r?\n$/` removal: strip one trailing CRLF or LF. -/
def stripTrailNL (s : Str) : Str :=
  match s.reverse with
  | '\n' :: '\r' :: r => r.reverse
  | '\n' :: r => r.reverse
  | _ => s

/-- The index of the last LF in a string, if any. -/
def lastNLIdx (ws : Str) : Option Nat :=
  match ws.reverse.findIdx? (fun c => c == '\n') with
  | some j => some (ws.length - 1 - j)
  | none => none

/-- `/^\/\/ START\s*\r?\n/` removal: when the body opens with the marker,
the greedy `\s*` backtracks so the match ends at the last newline of the
following whitespace run (no newline there means no match). -/
def stripStartMarker (s : Str) : Str :=
  if strHasPre ("// START".data) s then
    match lastNLIdx ((s.drop 8).takeWhile fun c => isJsSpace c) with
    | some i => (s.drop 8).drop (i + 1)
    | none => s
  else s


/-- One candidate position of `/\r?\n\/\/ END\s*$/`: a CRLF or LF, the
marker, then only whitespace to the end. -/
def endMarkerAt : Str → Bool
  | '\r' :: '\n' :: r =>
    strHasPre ("// END".data) r && (r.drop 6).all fun c => isJsSpace c
  | '\n' :: r =>
    strHasPre ("// END".data) r && (r.drop 6).all fun c => isJsSpace c
  | _ => false

/-- Leftmost index at which the END-marker pattern matches. -/
def findEndIdx : Str → Nat → Option Nat
  | [], _ => none
  | c :: r, i =>
    if endMarkerAt (c :: r) then some i else findEndIdx r (i + 1)

/-- `/\r?\n\/\/ END\s*$/` removal: drop from the leftmost match to the
end. -/
def stripEndMarker (s : Str) : Str :=
  match findEndIdx s 0 with
  | some i => s.take i
  | none => s

/-- The `replace`-content cleanup of `parseCodeBlock` (main path):
START/END markers, then one leading newline, then one trailing newline. -/
def cleanReplaceContent (content : Str) : Str :=
  stripTrailNL (stripLeadNL (stripEndMarker (stripStartMarker content)))

/-- Split at every LF or CR (the line boundaries of a JS
multiline-flag anchor). -/
def splitOnNLCR : Str → List Str
  | [] => [[]]
  | c :: r =>
    if c = '\n' ∨ c = '\r' then [] :: splitOnNLCR r
    else
      match splitOnNLCR r with
      | h :: t => (c :: h) :: t
      | [] => [[c]]

/-- `/^<<<<<<< SEARCH\s*$/m.test(content)`. -/
def hasSearchLine (content : Str) : Bool :=
  (splitOnNLCR content).any fun l =>
    strHasPre ("<<<<<<< SEARCH".data) l && (l.drop 14).all fun c => isJsSpace c

/-- `inferPatchStrategy` of src/parser.ts. -/
def inferPatchStrategy (content : Str) (provided : Option PatchStrategy) :
    PatchStrategy :=
  match provided with
  | some ps => ps
  | none =>
    if hasSearchLine content && strHasSub content (">>>>>>> REPLACE".data) then
      .searchReplace
    else if strHasPre ("--- ".data) content &&
        strHasSub content ("+++ ".data) && strHasSub content ("@@".data) then
      .standardDiff
    else .replace

/-- `PatchStrategySchema.safeParse` on a string. -/
def parseStrategy (s : Str) : Option PatchStrategy :=
  if s = "replace".data then some .replace
  else if s = "standard-diff".data then some .standardDiff
  else if s = "search-replace".data then some .searchReplace
  else none

/-- The optional strategy tail `(?:\s+(\S+))?$` of the header regex. -/
def tailTok (r : Str) : Option (Option Str) :=
  if r = [] then some none
  else if (r.takeWhile fun c => isJsSpace c) = [] then none
  else
    match r.dropWhile fun c => isJsSpace c with
    | [] => none
    | tok =>
      if tok.all (fun c => !(isJsSpace c)) then some (some tok) else none

/-- The quoted alternative `"([^"]+)"` of the header regex, with the
tail. -/
def quotedAlt (h : Str) : Option (Str × Option Str) :=
  match h with
  | '"' :: t =>
    match t.takeWhile fun c => c != '"' with
    | [] => none
    | content =>
      match t.drop content.length with
      | '"' :: rest => (tailTok rest).map fun st => (content, st)
      | _ => none
  | _ => none

/-- The unquoted alternative `(\S+)` of the header regex, with the tail. -/
def unquotedAlt (h : Str) : Option (Str × Option Str) :=
  match h.takeWhile fun c => !(isJsSpace c) with
  | [] => none
  | tok => (tailTok (h.drop tok.length)).map fun st => (tok, st)

/-- The header regex `^(?:"([^"]+)"|(\S+))(?:\s+(\S+))?$` of
`parseCodeBlockHeader`; the quoted alternative is preferred, and a
failing tail falls through to the unquoted one, as backtracking does. -/
def headerRegexMatch (h : Str) : Option (Str × Option Str) :=
  match quotedAlt h with
  | some r => some r
  | none => unquotedAlt h

/-- The whitespace-run field splitter (`headerLine.split(/\s+/)` on the
already-trimmed header lines the parser feeds it). -/
def fieldsGo : Str → Str → List Str
  | acc, [] => if acc = [] then [] else [acc.reverse]
  | acc, c :: r =>
    if isJsSpace c then
      if acc = [] then fieldsGo [] r else acc.reverse :: fieldsGo [] r
    else fieldsGo (c :: acc) r

/-- `split(/\s+/)` on a trimmed string. -/
def fields (s : Str) : List Str := fieldsGo [] s

/-- `parts.slice(0, -1).join(' ')`. -/
def joinSpace : List Str → Str
  | [] => []
  | [x] => x
  | x :: xs => x ++ ' ' :: joinSpace xs

/-- `parseCodeBlockHeader` of src/parser.ts. -/
def parseCodeBlockHeader (headerLine : Str) :
    Option (Str × Option PatchStrategy) :=
  match headerRegexMatch headerLine with
  | some (fp, stratStr) =>
    if fp = [] then none
    else
      match stratStr with
      | some s =>
        match parseStrategy s with
        | some ps => some (fp, some ps)
        | none => none
      | none => some (fp, none)
  | none =>
    let parts := fields headerLine
    if parts.length > 1 then
      match parseStrategy (parts.getLastD []) with
      | some ps => some (joinSpace parts.dropLast, some ps)
      | none =>
        if jsTrim headerLine = [] then none
        else some (jsTrim headerLine, none)
    else
      if jsTrim headerLine = [] then none
      else some (jsTrim headerLine, none)

/-- `DELETE_FILE_MARKER` of src/constants.ts. -/
def DELETE_FILE_MARKER : Str := "//TODO: delete this file".data

/-- `RENAME_FILE_OPERATION` of src/constants.ts. -/
def RENAME_FILE_OPERATION : Str := "rename-file".data

/-- `parseCodeBlock` of src/parser.ts from the rename short-circuit on,
over the normalised header line, parameterised by the
`JSON.parse`-plus-zod reader for rename bodies (an external facility). -/
def parseCodeBlockCore (renameBody : Str → Option (Str × Str))
    (headerLine content : Str) : Option FileOperation :=
  if headerLine = [] then none
  else if headerLine = RENAME_FILE_OPERATION then
    (renameBody content).map fun ft => .rename ft.1 ft.2
  else
    match parseCodeBlockHeader headerLine with
    | none =>
      if (fields headerLine).length > 1 then
        match parseStrategy ((fields headerLine).getLastD []) with
        | some _ => none
        | none =>
          if jsTrim content = DELETE_FILE_MARKER then
            some (.delete headerLine)
          else if inferPatchStrategy content none = .replace then
            some (.write headerLine (stripTrailNL (stripLeadNL content))
              .replace)
          else
            some (.write headerLine content
              (inferPatchStrategy content none))
      else none
    | some (filePath, pstrat) =>
      if jsTrim content = DELETE_FILE_MARKER then some (.delete filePath)
      else if inferPatchStrategy content pstrat = .replace then
        some (.write filePath (cleanReplaceContent content) .replace)
      else
        some (.write filePath content (inferPatchStrategy content pstrat))

/-- The `headerLine.startsWith('//')` strip of `parseCodeBlock`. -/
def parseCodeBlockTail (renameBody : Str → Option (Str × Str))
    (headerLine1 content : Str) : Option FileOperation :=
  parseCodeBlockCore renameBody
    (if strHasPre ("//".data) headerLine1 then
      jsTrim (headerLine1.drop 2)
    else headerLine1) content

/-- `parseCodeBlock` of src/parser.ts: trim the raw header, keep only the
text after a `//` comment marker if one occurs, strip a remaining leading
`//`, then classify. -/
def parseCodeBlock (renameBody : Str → Option (Str × Str))
    (rawHeader rawContent : Str) : Option FileOperation :=
  match idxOfSub (jsTrim rawHeader) ("//".data) with
  | some i => parseCodeBlockTail renameBody
      (jsTrim ((jsTrim rawHeader).drop (i + 2))) rawContent
  | none => parseCodeBlockTail renameBody (jsTrim rawHeader) rawContent

/-! ## C2: replace-content normalisation -/

/-- C2 (the code evaluated at the failing input).  For a classified
`replace` write whose body is a leading newline, `const x = 1;` and a
trailing newline, the parser emits content `const x = 1;`: the cleanup
also strips the trailing newline, so the emitted content differs from the
`const x = 1;\n` the claim requires. -/
theorem c2_trailing_newline_stripped :
    parseCodeBlock (fun _ => none) ("src/a.ts".data)
        ("\nconst x = 1;\n".data) =
      some (.write "src/a.ts".data "const x = 1;".data .replace) ∧
    ("const x = 1;".data : Str) ≠ "const x = 1;\n".data :=
  ⟨by decide, by decide⟩

/-! ## C5: header grammar fallback -/

/-- Validate the optional strategy token of a grammar parse against the
closed strategy enumeration. -/
def specOkStrat :
    Option (Str × Option Str) → Option (Str × Option PatchStrategy)
  | some (fp, none) => some (fp, none)
  | some (fp, some s) => (parseStrategy s).map fun ps => (fp, some ps)
  | none => none

/-- The specification's header grammar:
`header := quoted_path (WS strategy)? | unquoted_path (WS strategy)?`
with `strategy` drawn from the three known names. -/
def specHeaderParse (h : Str) : Option (Str × Option PatchStrategy) :=
  match specOkStrat (quotedAlt h) with
  | some r => some r
  | none => specOkStrat (unquotedAlt h)

theorem dropWhile_eq_self_of_length {p : Char → Bool} {l : Str}
    (h : (l.dropWhile p).length = l.length) : l.dropWhile p = l := by
  obtain ⟨t, ht⟩ := List.dropWhile_suffix (l := l) p
  have hlt : t.length = 0 := by
    have := congrArg List.length ht
    simp at this
    omega
  rw [List.length_eq_zero] at hlt
  rw [hlt] at ht
  simpa using ht

theorem jsTrim_fixed_dropWhile {s : Str} (htrim : jsTrim s = s) :
    (s.dropWhile fun c => isJsSpace c) = s ∧
    (s.reverse.dropWhile fun c => isJsSpace c) = s.reverse := by
  have hlen := congrArg List.length htrim
  unfold jsTrim at hlen
  have h1 : ((s.dropWhile fun c => isJsSpace c).reverse.dropWhile
      fun c => isJsSpace c).length ≤
      (s.dropWhile fun c => isJsSpace c).length := by
    have := (List.dropWhile_suffix
      (l := (s.dropWhile fun c => isJsSpace c).reverse)
      (fun c => isJsSpace c)).length_le
    simpa using this
  have h2 : (s.dropWhile fun c => isJsSpace c).length ≤ s.length :=
    (List.dropWhile_suffix (l := s) (fun c => isJsSpace c)).length_le
  simp only [List.length_reverse] at hlen
  have hd1 : (s.dropWhile fun c => isJsSpace c) = s :=
    dropWhile_eq_self_of_length (by omega)
  refine ⟨hd1, ?_⟩
  have htrim' := htrim
  unfold jsTrim at htrim'
  rw [hd1] at htrim'
  have := congrArg List.reverse htrim'
  simpa using this

theorem head_not_space {s : Str}
    (hd : (s.dropWhile fun c => isJsSpace c) = s) :
    ∀ c r, s = c :: r → isJsSpace c = false := by
  intro c r hs
  by_contra hc
  have hc' : isJsSpace c = true := by
    cases h : isJsSpace c
    · exact absurd h hc
    · rfl
  rw [hs] at hd
  rw [List.dropWhile_cons, if_pos hc'] at hd
  have := congrArg List.length hd
  have hle : (r.dropWhile fun c => isJsSpace c).length ≤ r.length :=
    (List.dropWhile_suffix (l := r) (fun c => isJsSpace c)).length_le
  simp at this
  omega

/-- A string whose reverse starts with a non-space has a non-empty
field list. -/
theorem fieldsGo_ne_nil :
    ∀ (s : Str) (acc : Str), s ≠ [] →
      (∀ c r, s.reverse = c :: r → isJsSpace c = false) →
      1 ≤ (fieldsGo acc s).length := by
  intro s
  induction s with
  | nil => intro acc h _; exact absurd rfl h
  | cons d r ih =>
    intro acc _ hlast
    by_cases hr : r = []
    · subst hr
      have hd : isJsSpace d = false := hlast d [] (by simp)
      simp only [fieldsGo, hd]
      simp [fieldsGo]
    · have hlast' : ∀ c t, r.reverse = c :: t → isJsSpace c = false := by
        intro c t hrev
        refine hlast c (t ++ [d]) ?_
        simp [hrev]
      by_cases hd : isJsSpace d = true
      · simp only [fieldsGo, hd, if_pos rfl]
        by_cases hacc : acc = []
        · rw [if_pos hacc]
          exact ih [] hr hlast'
        · rw [if_neg hacc]
          simp
      · have hd' : isJsSpace d = false := by
          cases h : isJsSpace d
          · rfl
          · exact absurd h hd
        simp only [fieldsGo, hd']
        exact ih (d :: acc) hr hlast'

/-- A trimmed string containing whitespace splits into at least two
fields. -/
theorem fieldsGo_ge_two :
    ∀ (s : Str) (acc : Str), s.any (fun c => isJsSpace c) = true →
      (∀ c r, s.reverse = c :: r → isJsSpace c = false) →
      (acc ≠ [] ∨ ∀ c r, s = c :: r → isJsSpace c = false) →
      2 ≤ (fieldsGo acc s).length := by
  intro s
  induction s with
  | nil => intro acc h _ _; simp at h
  | cons d r ih =>
    intro acc hany hlast hstart
    have hlast' : r ≠ [] → ∀ c t, r.reverse = c :: t → isJsSpace c = false := by
      intro _ c t hrev
      refine hlast c (t ++ [d]) ?_
      simp [hrev]
    by_cases hd : isJsSpace d = true
    · have hacc : acc ≠ [] := by
        rcases hstart with h | h
        · exact h
        · exact absurd (h d r rfl) (by simp [hd])
      have hr : r ≠ [] := by
        intro hre
        subst hre
        have := hlast d [] (by simp)
        rw [hd] at this
        exact Bool.noConfusion this
      simp only [fieldsGo, hd, eq_self_iff_true, if_true, if_neg hacc]
      have h1 : 1 ≤ (fieldsGo ([] : Str) r).length :=
        fieldsGo_ne_nil r [] hr (hlast' hr)
      simp only [List.length_cons]
      omega
    · have hd' : isJsSpace d = false := by
        cases h : isJsSpace d
        · rfl
        · exact absurd h hd
      have hany' : r.any (fun c => isJsSpace c) = true := by
        rw [List.any_cons, hd'] at hany
        simpa using hany
      have hr : r ≠ [] := by
        intro hre
        rw [hre] at hany'
        simp at hany'
      simp only [fieldsGo, hd']
      exact ih (d :: acc) hany' (hlast' hr) (Or.inl (by simp))

theorem fields_ge_two (s : Str) (htrim : jsTrim s = s)
    (hws : s.any (fun c => isJsSpace c) = true) : 1 < (fields s).length := by
  obtain ⟨hd1, hd2⟩ := jsTrim_fixed_dropWhile htrim
  have hhead := head_not_space hd1
  have hlast := head_not_space hd2
  have hlast' : ∀ c r, s.reverse = c :: r → isJsSpace c = false := by
    intro c r h
    exact hlast c r (by simpa using h)
  exact fieldsGo_ge_two s [] hws hlast' (Or.inr hhead)


/-- C5.  Header grammar fallback: a whitespace-containing (trimmed,
already comment-normalised) header that fails the quoted/unquoted grammar
and whose last whitespace-separated token is not a known strategy is
taken whole as the file path with no explicit strategy, the dialect being
inferred from the body; in particular the header `my file.ts` over a
plain body classifies as a `replace` write to the path `my file.ts`. -/
theorem c5_header_fallback :
    (∀ (renameBody : Str → Option (Str × Str)) (h body : Str),
      jsTrim h = h → h.any (fun c => isJsSpace c) = true →
      specHeaderParse h = none →
      parseStrategy ((fields h).getLastD []) = none →
      (if jsTrim body = DELETE_FILE_MARKER then
        parseCodeBlockCore renameBody h body = some (.delete h)
      else ∃ c : Str, parseCodeBlockCore renameBody h body =
        some (.write h c (inferPatchStrategy body none))))
  ∧ parseCodeBlock (fun _ => none) ("my file.ts".data)
      ("const y = 2;\n".data) =
      some (.write "my file.ts".data "const y = 2;".data .replace) := by
  constructor
  · intro rb h body htrim hws hspec hlaststrat
    simp only [List.getLastD_eq_getLast?] at hlaststrat
    have hne : h ≠ [] := by
      intro he
      rw [he] at hws
      simp at hws
    have hren : h ≠ RENAME_FILE_OPERATION := by
      intro he
      rw [he] at hws
      exact absurd hws (by decide)
    have hparts : 1 < (fields h).length := fields_ge_two h htrim hws
    have hq : specOkStrat (quotedAlt h) = none := by
      unfold specHeaderParse at hspec
      cases hq : specOkStrat (quotedAlt h) with
      | none => rfl
      | some r =>
        rw [hq] at hspec
        exact absurd hspec (by simp)
    have hu : specOkStrat (unquotedAlt h) = none := by
      unfold specHeaderParse at hspec
      rw [hq] at hspec
      exact hspec
    have hpch : parseCodeBlockHeader h = none ∨
        parseCodeBlockHeader h = some (h, none) := by
      cases hr : headerRegexMatch h with
      | some pr =>
        obtain ⟨fp, st⟩ := pr
        have hso : specOkStrat (some (fp, st)) = none := by
          unfold headerRegexMatch at hr
          cases hqa : quotedAlt h with
          | some q =>
            rw [hqa] at hr
            have hqe : q = (fp, st) := by injection hr
            rw [← hqe]
            rw [hqa] at hq
            exact hq
          | none =>
            rw [hqa] at hr
            rw [← hr]
            exact hu
        cases st with
        | none => exact absurd hso (by simp [specOkStrat])
        | some stok =>
          have hps : parseStrategy stok = none := by
            cases hps2 : parseStrategy stok with
            | none => rfl
            | some ps =>
              rw [show specOkStrat (some (fp, some stok)) =
                  some (fp, some ps) by simp [specOkStrat, hps2]] at hso
              exact absurd hso (by simp)
          left
          by_cases hfp : fp = []
          · simp [parseCodeBlockHeader, hr, hfp]
          · simp [parseCodeBlockHeader, hr, hfp, hps]
      | none =>
        right
        simp [parseCodeBlockHeader, hr, hparts, hlaststrat, hne, htrim]
    rcases hpch with hpch | hpch
    · by_cases hdel : jsTrim body = DELETE_FILE_MARKER
      · rw [if_pos hdel]
        simp [parseCodeBlockCore, hne, hren, hpch, hparts, hlaststrat, hdel]
      · rw [if_neg hdel]
        by_cases hrep : inferPatchStrategy body none = .replace
        · refine ⟨stripTrailNL (stripLeadNL body), ?_⟩
          rw [hrep]
          simp [parseCodeBlockCore, hne, hren, hpch, hparts, hlaststrat,
            hdel, hrep]
        · refine ⟨body, ?_⟩
          simp [parseCodeBlockCore, hne, hren, hpch, hparts, hlaststrat,
            hdel, hrep]
    · by_cases hdel : jsTrim body = DELETE_FILE_MARKER
      · rw [if_pos hdel]
        simp [parseCodeBlockCore, hne, hren, hpch, hdel]
      · rw [if_neg hdel]
        by_cases hrep : inferPatchStrategy body none = .replace
        · refine ⟨cleanReplaceContent body, ?_⟩
          rw [hrep]
          simp [parseCodeBlockCore, hne, hren, hpch, hdel, hrep]
        · refine ⟨body, ?_⟩
          simp [parseCodeBlockCore, hne, hren, hpch, hdel, hrep]
  · decide

/-- C5 witness: the fallback theorem applied to the header `my file.ts`
over the plain body `x` with a trailing newline. -/
theorem c5_witness :
    (if jsTrim ("x\n".data) = DELETE_FILE_MARKER then
      parseCodeBlockCore (fun _ => none) ("my file.ts".data) ("x\n".data) =
        some (.delete "my file.ts".data)
    else ∃ c : Str,
      parseCodeBlockCore (fun _ => none) ("my file.ts".data) ("x\n".data) =
        some (.write "my file.ts".data c
          (inferPatchStrategy ("x\n".data) none))) :=
  c5_header_fallback.1 (fun _ => none) ("my file.ts".data) ("x\n".data)
    (by decide) (by decide) (by decide) (by decide)


/-! ## C4: metadata extraction (src/parser.ts, extractAndParseYaml) -/

/-- Case-insensitive ASCII prefix test (the pattern is given in lower
case). -/
def lowerPre : Str → Str → Bool
  | [], _ => true
  | _ :: _, [] => false
  | a :: as, b :: bs => (a == b.toLower) && lowerPre as bs

/-- First index at which a triple backtick starts. -/
def findTicks : Str → Option Nat
  | [] => none
  | c :: r =>
    if strHasPre ("```".data) (c :: r) then some 0
    else (findTicks r).map (· + 1)

/-- One anchored attempt of the fenced-YAML regex
(the pattern over three backticks, optional whitespace, a
case-insensitive yaml or yml tag, one CR or LF, a lazy non-empty capture
and a closing triple backtick): returns the full-match length and the
capture.  The greedy whitespace run cannot backtrack because the tag
starts with a non-space. -/
def yamlKw (r1 : Str) : Option Nat :=
  if lowerPre ("yaml".data) r1 then some 4
  else if lowerPre ("yml".data) r1 then some 3
  else none

/-- The tail of a fenced-YAML attempt after the tag: one CR or LF, the
lazy non-empty capture, the closing backticks. -/
def yamlTail (r2 : Str) : Option (Nat × Str) :=
  match r2 with
  | c :: r3 =>
    if c = '\r' ∨ c = '\n' then
      match findTicks (r3.drop 1) with
      | some j => some (1 + (j + 1) + 3, r3.take (j + 1))
      | none => none
    else none
  | [] => none

def yamlMatchAt (s : Str) : Option (Nat × Str) :=
  if strHasPre ("```".data) s then
    match yamlKw ((s.drop 3).drop
        ((s.drop 3).takeWhile fun c => isJsSpace c).length) with
    | none => none
    | some k =>
      match yamlTail (((s.drop 3).drop
          ((s.drop 3).takeWhile fun c => isJsSpace c).length).drop k) with
      | some (tl, content) =>
        some (3 + ((s.drop 3).takeWhile fun c => isJsSpace c).length +
          k + tl, content)
      | none => none
  else none

/-- The global scan of the fenced-YAML regex (`matchAll`): disjoint
matches in order, with their start index and full length.  The fuel is an
upper bound on the steps; every step consumes at least one character. -/
def yamlScanGo : Nat → Str → Nat → List (Nat × Nat × Str)
  | 0, _, _ => []
  | fuel + 1, s, i =>
    match s with
    | [] => []
    | c :: r =>
      match yamlMatchAt (c :: r) with
      | some (len, content) =>
        (i, len, content) :: yamlScanGo fuel ((c :: r).drop len) (i + len)
      | none => yamlScanGo fuel r (i + 1)

/-- All fenced-YAML matches of a text. -/
def yamlScanAll (s : Str) : List (Nat × Nat × Str) :=
  yamlScanGo (s.length + 1) s 0

/-- One backtracking attempt of the code-block regex header part: cut `k`
whitespace characters for the greedy run, read the lazy header up to the
first CR or LF, and require an LF or CRLF there. -/
def fenceTry (t : Str) (k : Nat) : Option (Nat × Str × Nat) :=
  match (t.drop k).drop
      ((t.drop k).takeWhile fun c => !(c == '\r' || c == '\n')).length with
  | '\r' :: '\n' :: _ =>
    some (k, (t.drop k).takeWhile fun c => !(c == '\r' || c == '\n'), 2)
  | '\n' :: _ =>
    some (k, (t.drop k).takeWhile fun c => !(c == '\r' || c == '\n'), 1)
  | _ => none

/-- Backtrack the greedy whitespace run from longest to shortest. -/
def fenceSplit (t : Str) : Nat → Option (Nat × Str × Nat)
  | 0 => fenceTry t 0
  | k + 1 =>
    match fenceTry t (k + 1) with
    | some res => some res
    | none => fenceSplit t k

/-- One anchored attempt of the code-block regex of the scanner
(`CODE_BLOCK_REGEX`): three backticks, an optional greedy word tag, a
greedy whitespace run, the lazy header line, its newline, the lazy body
and the closing backticks.  Returns full length, header and body. -/
def codeMatchAt (s : Str) : Option (Nat × Str × Str) :=
  if strHasPre ("```".data) s then
    match fenceSplit ((s.drop 3).drop
        ((s.drop 3).takeWhile fun c => isWordChar c).length)
        (((((s.drop 3).drop
          ((s.drop 3).takeWhile fun c => isWordChar c).length)).takeWhile
            fun c => isJsSpace c).length) with
    | none => none
    | some (k, hdr, nl) =>
      match findTicks (((s.drop 3).drop
          ((s.drop 3).takeWhile fun c => isWordChar c).length).drop
            (k + hdr.length + nl)) with
      | none => none
      | some j =>
        some (3 + ((s.drop 3).takeWhile fun c => isWordChar c).length +
          k + hdr.length + nl + j + 3, hdr,
          (((s.drop 3).drop
            ((s.drop 3).takeWhile fun c => isWordChar c).length).drop
              (k + hdr.length + nl)).take j)
  else none

/-- Global scan of the code-block regex: disjoint matches in order as
(full match, header, body). -/
def codeScanGo : Nat → Str → List (Str × Str × Str)
  | 0, _ => []
  | fuel + 1, s =>
    match s with
    | [] => []
    | c :: r =>
      match codeMatchAt (c :: r) with
      | some (len, hdr, body) =>
        ((c :: r).take len, hdr, body) :: codeScanGo fuel ((c :: r).drop len)
      | none => codeScanGo fuel r

/-- All code-block matches of a text. -/
def codeScanAll (s : Str) : List (Str × Str × Str) :=
  codeScanGo (s.length + 1) s

/-- The required fields of `ControlYamlSchema`. -/
structure ControlYaml where
  projectId : Str
  uuid : Str
deriving DecidableEq, Repr

/-- `lines[i]?.trim().match(/^projectId:/)`. -/
def startsProjLine (l : Str) : Bool :=
  strHasPre ("projectId:".data) (jsTrim l)

/-- The bottom-up anchor scan of strategy 2 (`for i = length-1; i >=
searchLimit; i--`): the argument is one past the index examined. -/
def findProjFrom (lines : List Str) (limit : Nat) : Nat → Option Nat
  | 0 => none
  | i + 1 =>
    if i + 1 ≤ limit then none
    else if startsProjLine (lines.getD i []) then some i
    else findProjFrom lines limit i

/-- `split('\n')`. -/
def splitNL (s : Str) : List Str := splitChar '\n' s

/-- `join('\n')`. -/
def joinNL : List Str → Str
  | [] => []
  | [x] => x
  | x :: xs => x ++ '\n' :: joinNL xs

/-- Strategy 2 of `extractAndParseYaml`: a bare `projectId:` tail within
the last 20 lines of the trimmed text. -/
def bareTail (loadControl : Str → Option ControlYaml) (rawText : Str) :
    Option ControlYaml × Str :=
  match findProjFrom (splitNL (jsTrim rawText))
      ((splitNL (jsTrim rawText)).length - 20)
      (splitNL (jsTrim rawText)).length with
  | some i =>
    match loadControl (joinNL ((splitNL (jsTrim rawText)).drop i)) with
    | some control =>
      (some control, jsTrim (joinNL ((splitNL (jsTrim rawText)).take i)))
    | none => (none, rawText)
  | none => (none, rawText)

/-- `extractAndParseYaml` of src/parser.ts, parameterised by the
`js-yaml`-plus-zod control validator: try the last fenced YAML block,
else the bare tail, else give up. -/
def extractAndParseYaml (loadControl : Str → Option ControlYaml)
    (rawText : Str) : Option ControlYaml × Str :=
  match (yamlScanAll rawText).getLast? with
  | some m =>
    match loadControl m.2.2 with
    | some control =>
      (some control,
        jsTrim (rawText.take m.1 ++ rawText.drop (m.1 + m.2.1)))
    | none => bareTail loadControl rawText
  | none => bareTail loadControl rawText

/-- The parsed-response envelope. -/
structure ParsedLLMResponse where
  control : ControlYaml
  operations : List FileOperation
  reasoning : List Str
deriving Repr

/-- JS `String.replace` with a plain-string pattern and empty
replacement: remove the first occurrence. -/
def replaceFirst (s pat : Str) : Str :=
  match idxOfSub s pat with
  | some i => s.take i ++ s.drop (i + pat.length)
  | none => s

/-- `parseLLMResponse` of src/parser.ts.  The final
`ParsedLLMResponseSchema.parse` revalidates data that is already typed in
the model, so it cannot fail here. -/
def parseLLMResponse (loadControl : Str → Option ControlYaml)
    (renameBody : Str → Option (Str × Str)) (rawText : Str) :
    Option ParsedLLMResponse :=
  match extractAndParseYaml loadControl rawText with
  | (none, _) => none
  | (some control, txt) =>
    match (codeScanAll txt).filterMap fun m =>
        (parseCodeBlock renameBody m.2.1 m.2.2).map fun op => (op, m.1) with
    | [] => none
    | results =>
      some ⟨control, results.map Prod.fst,
        ((splitNL (results.foldl (fun acc r => replaceFirst acc r.2)
          txt)).map jsTrim).filter fun l => !(l.isEmpty)⟩


/-- C4 (amended).  When the last fenced YAML block fails validation and
the bare-tail strategy also fails, `parse_response` returns `None` even
if an earlier fenced block would have validated: the earlier valid block
is never adopted. -/
theorem c4_last_yaml_only (lc : Str → Option ControlYaml)
    (rb : Str → Option (Str × Str)) (raw : Str) (m : Nat × Nat × Str)
    (hlast : (yamlScanAll raw).getLast? = some m)
    (hearlier : ∃ p ∈ (yamlScanAll raw).dropLast, (lc p.2.2).isSome)
    (hinvalid : lc m.2.2 = none)
    (hbare : (bareTail lc raw).1 = none) :
    parseLLMResponse lc rb raw = none := by
  have hext : extractAndParseYaml lc raw = bareTail lc raw := by
    unfold extractAndParseYaml
    rw [hlast]
    simp only [hinvalid]
  rcases hb : bareTail lc raw with ⟨ctl, txt⟩
  have hctl : ctl = none := by
    rw [hb] at hbare
    exact hbare
  subst hctl
  unfold parseLLMResponse
  rw [hext, hb]

/-- The `js-yaml`-plus-zod validator restricted to the strings the C4
inputs reach: the two-line control document (with or without a trailing
newline) parses and validates to `{projectId: "p", uuid: …}`; every other
probed string is rejected — `bad: 1` parses but fails the schema, and the
bare tails that include fence lines are YAML parse errors. -/
def lcC4 : Str → Option ControlYaml := fun s =>
  if s = "projectId: p\nuuid: 550e8400-e29b-41d4-a716-446655440000\n".data
      ∨ s = "projectId: p\nuuid: 550e8400-e29b-41d4-a716-446655440000".data
  then some ⟨"p".data, "550e8400-e29b-41d4-a716-446655440000".data⟩
  else none

/-- C4 counterexample input: a valid operation block, an earlier valid
fenced YAML control, a later invalid fenced YAML block, and a bare
control tail after it. -/
def rawC4cex : Str :=
  ("```ts a.ts\nx\n```\n```yaml\nprojectId: p\nuuid: " ++
   "550e8400-e29b-41d4-a716-446655440000\n```\n```yaml\nbad: 1\n```\n" ++
   "projectId: p\nuuid: 550e8400-e29b-41d4-a716-446655440000").data

/-- C4 witness input: the counterexample without the bare tail. -/
def rawC4wit : Str :=
  ("```ts a.ts\nx\n```\n```yaml\nprojectId: p\nuuid: " ++
   "550e8400-e29b-41d4-a716-446655440000\n```\n```yaml\nbad: 1\n```").data

/-- C4 counterexample: the input has two fenced YAML blocks of which only
the earlier one is a schema-valid control block, yet `parse_response`
succeeds — the bare `projectId:` tail inside the last 20 lines rescues
the response, refuting the claim that it returns `None`. -/
theorem c4_counterexample :
    (yamlScanAll rawC4cex).length = 2 ∧
    (∃ p ∈ (yamlScanAll rawC4cex).dropLast, (lcC4 p.2.2).isSome) ∧
    lcC4 (((yamlScanAll rawC4cex).getLastD (0, 0, [])).2.2) = none ∧
    (parseLLMResponse lcC4 (fun _ => none) rawC4cex).isSome = true := by
  refine ⟨by decide, by decide, by decide, by decide⟩

/-- C4 witness: the amended theorem applied to the witness input, whose
bare-tail scan lands on the `projectId:` line inside the earlier fenced
block and fails YAML parsing on the fence that follows. -/
theorem c4_witness :
    parseLLMResponse lcC4 (fun _ => none) rawC4wit = none :=
  c4_last_yaml_only lcC4 (fun _ => none) rawC4wit
    ((yamlScanAll rawC4wit).getLastD (0, 0, []))
    (by decide) (by decide) (by decide) (by decide)

end Relay
